import Mathlib

/-!
Verification of the artifact assembly and embedding pipeline implemented by
`genGlslEmuLib.py` (LLPC GLSL emulation library generator).

The development shallowly embeds the script:

* the three inlined binary-to-hex encoding loops (special-feature packaging,
  common-library packaging, per-variant packaging) as `bin2hexSpecial`,
  `bin2hexCommon`, `bin2hexVariant` over byte lists (`binascii.hexlify`
  becomes `hexlify`);
* the pre-compile cleanup sweep (the "Artifact Janitor") as `janitor` over a
  one-level-recursive directory tree;
* the orchestration pipeline (cleanup, IR generation, assembly, special
  feature packaging, common packaging, per-variant packaging) as a state
  machine over `PState`, parameterised by a `Toolchain` record that models the
  external `llvm-as` / `llvm-link` processes and the two IR generators.

Bytes are `Nat` values; file contents are `List Nat`; Python strings are
`String` with `startswith` / `endswith` rendered through the `sStarts` /
`sEnds` predicates over the underlying character lists.
-/

/-! ## Binary-to-hex encoding (the `bin2hex` loops) -/

/-- One lowercase hexadecimal digit character, as produced by
`binascii.hexlify` (0-9 then a-f). -/
def hexDigit (n : Nat) : Char :=
  if n < 10 then Char.ofNat (48 + n) else Char.ofNat (87 + n)

/-- `binascii.hexlify(binData).decode()`: each byte becomes its two lowercase
hex digit characters, in order. -/
def hexlify : List Nat → List Char
  | [] => []
  | b :: bs => hexDigit (b / 16 % 16) :: hexDigit (b % 16) :: hexlify bs

/-- The `while i < len(hexData)` loop of the special-feature packaging step
(source lines 128-138): emit `0x`, the two hex digits at `i`, advance `i` by
two, emit `", "` unless `i` reached the end, emit a newline whenever
`i % 32 == 0`.  The input always has even length (it is `hexlify` output), so
the one-character fallback case is unreachable in the script. -/
def bin2hexGoSpecial (total : Nat) : List Char → Nat → List Char
  | c1 :: c2 :: rest, i =>
    '0' :: 'x' :: c1 :: c2 ::
      ((if i + 2 ≠ total then [',', ' '] else []) ++
       (if (i + 2) % 32 = 0 then ['\n'] else []) ++
       bin2hexGoSpecial total rest (i + 2))
  | _, _ => []

/-- The identical `while` loop of the common-library packaging step
(source lines 173-183). -/
def bin2hexGoCommon (total : Nat) : List Char → Nat → List Char
  | c1 :: c2 :: rest, i =>
    '0' :: 'x' :: c1 :: c2 ::
      ((if i + 2 ≠ total then [',', ' '] else []) ++
       (if (i + 2) % 32 = 0 then ['\n'] else []) ++
       bin2hexGoCommon total rest (i + 2))
  | _, _ => []

/-- The identical `while` loop of the per-variant packaging step
(source lines 246-256). -/
def bin2hexGoVariant (total : Nat) : List Char → Nat → List Char
  | c1 :: c2 :: rest, i =>
    '0' :: 'x' :: c1 :: c2 ::
      ((if i + 2 ≠ total then [',', ' '] else []) ++
       (if (i + 2) % 32 = 0 then ['\n'] else []) ++
       bin2hexGoVariant total rest (i + 2))
  | _, _ => []

/-- Hex text produced by the special-feature packaging step for raw bytes. -/
def bin2hexSpecial (bin : List Nat) : String :=
  ⟨bin2hexGoSpecial (hexlify bin).length (hexlify bin) 0⟩

/-- Hex text produced by the common-library packaging step for raw bytes. -/
def bin2hexCommon (bin : List Nat) : String :=
  ⟨bin2hexGoCommon (hexlify bin).length (hexlify bin) 0⟩

/-- Hex text produced by the per-variant packaging step for raw bytes. -/
def bin2hexVariant (bin : List Nat) : String :=
  ⟨bin2hexGoVariant (hexlify bin).length (hexlify bin) 0⟩

/-! ### Token-level characterisation of the encoder -/

/-- The two hex digit characters of a byte. -/
def hexPair (b : Nat) : List Char := [hexDigit (b / 16 % 16), hexDigit (b % 16)]

/-- The characters the encoder emits for the `j`-th byte (0-based) of an
`n`-byte input: `0x`, the byte's two lowercase hex digits, a `", "` separator
unless the byte is the last one, and a newline after every 16th byte. -/
def hexToken (n j b : Nat) : List Char :=
  '0' :: 'x' :: hexPair b ++
    (if j + 1 ≠ n then [',', ' '] else []) ++
    (if (j + 1) % 16 = 0 then ['\n'] else [])

/-- Concatenation of the tokens of the bytes `bs`, starting at index `j` of an
`n`-byte input. -/
def renderFrom (n : Nat) : Nat → List Nat → List Char
  | _, [] => []
  | j, b :: bs => hexToken n j b ++ renderFrom n (j + 1) bs

lemma hexlify_length (bs : List Nat) : (hexlify bs).length = 2 * bs.length := by
  induction bs with
  | nil => rfl
  | cons b bs ih => simp [hexlify, ih, List.length_cons]; omega

lemma goCommon_eq_renderFrom (bs : List Nat) :
    ∀ j n, n = j + bs.length →
      bin2hexGoCommon (2 * n) (hexlify bs) (2 * j) = renderFrom n j bs := by
  induction bs with
  | nil => intro j n _; rfl
  | cons b bs ih =>
    intro j n hn
    simp only [List.length_cons] at hn
    have e2 : 2 * j + 2 = 2 * (j + 1) := by omega
    have hsep : (2 * j + 2 ≠ 2 * n) ↔ (j + 1 ≠ n) := by omega
    have hnl : ((2 * j + 2) % 32 = 0) ↔ ((j + 1) % 16 = 0) := by omega
    have ihe : bin2hexGoCommon (2 * n) (hexlify bs) (2 * (j + 1)) =
        renderFrom n (j + 1) bs := ih (j + 1) n (by omega)
    show bin2hexGoCommon (2 * n)
        (hexDigit (b / 16 % 16) :: hexDigit (b % 16) :: hexlify bs) (2 * j) = _
    rw [renderFrom, hexToken, hexPair]
    rw [bin2hexGoCommon]
    rw [e2, ihe]
    by_cases hlast : j + 1 = n
    · rw [if_neg (by omega : ¬ 2 * (j + 1) ≠ 2 * n), if_neg (by omega : ¬ j + 1 ≠ n)]
      by_cases hwrap : (j + 1) % 16 = 0
      · rw [if_pos (by omega : (2 * (j + 1)) % 32 = 0), if_pos hwrap]
        simp
      · rw [if_neg (by omega : ¬ (2 * (j + 1)) % 32 = 0), if_neg hwrap]
        simp
    · rw [if_pos (by omega : 2 * (j + 1) ≠ 2 * n), if_pos (by omega : j + 1 ≠ n)]
      by_cases hwrap : (j + 1) % 16 = 0
      · rw [if_pos (by omega : (2 * (j + 1)) % 32 = 0), if_pos hwrap]
        simp
      · rw [if_neg (by omega : ¬ (2 * (j + 1)) % 32 = 0), if_neg hwrap]
        simp

lemma bin2hexCommon_data (bs : List Nat) :
    (bin2hexCommon bs).data = renderFrom bs.length 0 bs := by
  show bin2hexGoCommon (hexlify bs).length (hexlify bs) 0 = _
  rw [hexlify_length]
  have := goCommon_eq_renderFrom bs 0 bs.length (by omega)
  simpa using this

lemma goSpecial_eq_goCommon :
    ∀ (l : List Char) (total i : Nat),
      bin2hexGoSpecial total l i = bin2hexGoCommon total l i
  | [], _, _ => rfl
  | [_], _, _ => rfl
  | _ :: _ :: rest, total, i => by
    rw [bin2hexGoSpecial, bin2hexGoCommon]
    rw [goSpecial_eq_goCommon rest]

lemma goVariant_eq_goCommon :
    ∀ (l : List Char) (total i : Nat),
      bin2hexGoVariant total l i = bin2hexGoCommon total l i
  | [], _, _ => rfl
  | [_], _, _ => rfl
  | _ :: _ :: rest, total, i => by
    rw [bin2hexGoVariant, bin2hexGoCommon]
    rw [goVariant_eq_goCommon rest]

lemma bin2hexSpecial_eq (bs : List Nat) : bin2hexSpecial bs = bin2hexCommon bs := by
  show String.mk _ = String.mk _
  rw [goSpecial_eq_goCommon]

lemma bin2hexVariant_eq (bs : List Nat) : bin2hexVariant bs = bin2hexCommon bs := by
  show String.mk _ = String.mk _
  rw [goVariant_eq_goCommon]

/-! ### Decoding, digit facts -/

/-- Lowercase hexadecimal digit predicate. -/
def isHexLower (c : Char) : Bool :=
  ('0' ≤ c && c ≤ '9') || ('a' ≤ c && c ≤ 'f')

/-- Numeric value of a lowercase hexadecimal digit character. -/
def hexVal (c : Char) : Nat :=
  if c ≤ '9' then c.toNat - 48 else c.toNat - 87

/-- Decoder for the generated hex text, following the spec's reading recipe:
skip `", "` separator characters and newlines, and read each `0x`-prefixed
two-hex-digit token in order. -/
def decodeHex : List Char → Option (List Nat)
  | [] => some []
  | ',' :: rest => decodeHex rest
  | ' ' :: rest => decodeHex rest
  | '\n' :: rest => decodeHex rest
  | '0' :: 'x' :: d1 :: d2 :: rest =>
    if isHexLower d1 && isHexLower d2 then
      (decodeHex rest).map (fun bs => (hexVal d1 * 16 + hexVal d2) :: bs)
    else none
  | _ => none

lemma hexDigit_spec :
    ∀ k, k < 16 → isHexLower (hexDigit k) = true ∧ hexVal (hexDigit k) = k ∧
      hexDigit k ≠ '\n' ∧ hexDigit k ≠ ',' ∧ hexDigit k ≠ ' ' := by decide

lemma div16_mod16_lt (b : Nat) : b / 16 % 16 < 16 := Nat.mod_lt _ (by omega)

lemma mod16_lt (b : Nat) : b % 16 < 16 := Nat.mod_lt _ (by omega)

lemma decodeHex_renderFrom (bs : List Nat) :
    ∀ j n, (∀ b ∈ bs, b < 256) → decodeHex (renderFrom n j bs) = some bs := by
  induction bs with
  | nil => intro j n _; rfl
  | cons b bs ih =>
    intro j n hb
    have hblt : b < 256 := hb b (List.mem_cons_self b bs)
    have h1 := hexDigit_spec _ (div16_mod16_lt b)
    have h2 := hexDigit_spec _ (mod16_lt b)
    have hrest : decodeHex (renderFrom n (j + 1) bs) = some bs :=
      ih (j + 1) n (fun x hx => hb x (List.mem_cons_of_mem _ hx))
    have hskip : ∀ l : List Char,
        decodeHex ((if j + 1 ≠ n then [',', ' '] else []) ++
          (if (j + 1) % 16 = 0 then ['\n'] else []) ++ l) = decodeHex l := by
      intro l
      by_cases hlast : j + 1 ≠ n <;> by_cases hw : (j + 1) % 16 = 0 <;>
        simp [hlast, hw, decodeHex]
    show decodeHex ('0' :: 'x' :: hexDigit (b / 16 % 16) :: hexDigit (b % 16) ::
      ((if j + 1 ≠ n then [',', ' '] else []) ++
       (if (j + 1) % 16 = 0 then ['\n'] else []) ++ renderFrom n (j + 1) bs)) = _
    rw [decodeHex]
    rw [if_pos (by rw [h1.1, h2.1]; rfl)]
    rw [hskip, hrest]
    have hv : hexVal (hexDigit (b / 16 % 16)) * 16 + hexVal (hexDigit (b % 16)) = b := by
      rw [h1.2.1, h2.2.1]
      have : b / 16 < 16 := by omega
      have e : b / 16 % 16 = b / 16 := Nat.mod_eq_of_lt this
      rw [e]
      omega
    rw [hv]
    rfl

/-! ## Claim C1: hex round-trip -/

/-- C1: for every byte sequence `b` (including the empty sequence), decoding
the hex encoder's output for `b` — skipping the `0x` prefixes, the `", "`
separators and the newlines, and reading the two-hex-digit tokens in order —
reproduces `b` exactly. -/
theorem hex_roundtrip (bs : List Nat) (hb : ∀ b ∈ bs, b < 256) :
    decodeHex (bin2hexCommon bs).data = some bs := by
  rw [bin2hexCommon_data]
  exact decodeHex_renderFrom bs 0 bs.length hb

theorem hex_roundtrip_witness :
    (∀ b ∈ [0, 22, 171, 255], b < 256) ∧
      decodeHex (bin2hexCommon [0, 22, 171, 255]).data = some [0, 22, 171, 255] :=
  ⟨by decide, hex_roundtrip [0, 22, 171, 255] (by decide)⟩

/-! ## Claim C9: the three encoding sites agree -/

/-- C9: the three inlined binary-to-hex encoding passes (special-feature
packaging, common-library packaging, and per-variant packaging) compute the
same binary-to-text function: on every byte sequence all three produce
identical output text. -/
theorem bin2hex_sites_agree (bs : List Nat) :
    bin2hexSpecial bs = bin2hexCommon bs ∧ bin2hexVariant bs = bin2hexCommon bs :=
  ⟨bin2hexSpecial_eq bs, bin2hexVariant_eq bs⟩

/-! ## Claim C4: token format, separators, empty input -/

/-- C4: every byte is rendered as `0x` followed by exactly its two-digit
lowercase hexadecimal value, consecutive tokens are separated by `", "` with
no separator after the last byte's token, and the empty input produces the
empty string.  The output is exactly the concatenation of the per-byte tokens
`hexToken` (whose separator is present precisely for non-final bytes), the
two digit characters of each byte are lowercase hex digits re-encoding the
byte's value, and the empty input yields `""`. -/
theorem hex_token_format (bs : List Nat) (hb : ∀ b ∈ bs, b < 256) :
    (bin2hexSpecial bs).data = renderFrom bs.length 0 bs ∧
    bin2hexSpecial [] = "" ∧
    ∀ b ∈ bs, isHexLower (hexDigit (b / 16 % 16)) = true ∧
      isHexLower (hexDigit (b % 16)) = true ∧
      hexVal (hexDigit (b / 16 % 16)) * 16 + hexVal (hexDigit (b % 16)) = b := by
  refine ⟨?_, rfl, ?_⟩
  · rw [bin2hexSpecial_eq, bin2hexCommon_data]
  · intro b hbin
    have hblt : b < 256 := hb b hbin
    have h1 := hexDigit_spec _ (div16_mod16_lt b)
    have h2 := hexDigit_spec _ (mod16_lt b)
    refine ⟨h1.1, h2.1, ?_⟩
    rw [h1.2.1, h2.2.1]
    have : b / 16 < 16 := by omega
    have e : b / 16 % 16 = b / 16 := Nat.mod_eq_of_lt this
    rw [e]
    omega

theorem hex_token_format_witness :
    (∀ b ∈ [7, 160], b < 256) ∧
      ((bin2hexSpecial [7, 160]).data = renderFrom 2 0 [7, 160] ∧
       bin2hexSpecial [] = "" ∧
       ∀ b ∈ [7, 160], isHexLower (hexDigit (b / 16 % 16)) = true ∧
         isHexLower (hexDigit (b % 16)) = true ∧
         hexVal (hexDigit (b / 16 % 16)) * 16 + hexVal (hexDigit (b % 16)) = b) :=
  ⟨by decide, hex_token_format [7, 160] (by decide)⟩

/-! ## Claim C2: line-wrap invariant (corrected) -/

lemma count_newline_hexToken (n j b : Nat) :
    (hexToken n j b).count '\n' = if (j + 1) % 16 = 0 then 1 else 0 := by
  have h1 := (hexDigit_spec _ (div16_mod16_lt b)).2.2.1
  have h2 := (hexDigit_spec _ (mod16_lt b)).2.2.1
  by_cases hlast : j + 1 ≠ n <;> by_cases hw : (j + 1) % 16 = 0 <;>
    simp [hexToken, hexPair, hlast, hw, List.count_cons, List.count_append, h1, h2]

lemma count_newline_renderFrom (bs : List Nat) :
    ∀ j, (renderFrom (j + bs.length) j bs).count '\n'
      = (j + bs.length) / 16 - j / 16 := by
  -- the total `n` plays no role in the newline count, so we prove the
  -- statement for arbitrary totals first
  suffices h : ∀ (n : Nat) (j : Nat),
      (renderFrom n j bs).count '\n' = (j + bs.length) / 16 - j / 16 by
    intro j; exact h (j + bs.length) j
  induction bs with
  | nil => intro n j; simp [renderFrom]
  | cons b bs ih =>
    intro n j
    rw [renderFrom, List.count_append, count_newline_hexToken, ih n (j + 1)]
    simp only [List.length_cons]
    by_cases hw : (j + 1) % 16 = 0
    · rw [if_pos hw]; omega
    · rw [if_neg hw]; omega

lemma count_newline_bin2hexCommon (bs : List Nat) :
    (bin2hexCommon bs).data.count '\n' = bs.length / 16 := by
  rw [bin2hexCommon_data]
  have := count_newline_renderFrom bs 0
  simpa using this

/-- C2 counterexample: for the input consisting of 16 zero bytes the encoded
text contains one newline (appended right after the final token, because
`i % 32 == 0` is tested after `i` has advanced past the final byte), whereas
the claim predicts `ceil(16/16) - 1 = 0` newlines, each following a `", "`
separator. -/
theorem linewrap_claim_false :
    (bin2hexCommon (List.replicate 16 0)).data.count '\n' = 1 ∧
      (16 + 16 - 1) / 16 - 1 = 0 ∧ (1 : Nat) ≠ 0 := by decide

/-- C2 (amended): for an input of `n` bytes the encoded text contains exactly
`floor(n/16)` newlines (zero for `n == 0`); the output is exactly the
concatenation of the per-byte tokens `hexToken`, in which a newline occurs
only at the very end of the token of every 16th byte — after that token's
`", "` separator when the byte is not the last one, and directly after the
hex digits when `n` is a positive multiple of 16 — and the two hex-digit
characters of a token are never newline characters, so no newline splits a
`0xNN` token. -/
theorem linewrap_amended (bs : List Nat) :
    (bin2hexCommon bs).data.count '\n' = bs.length / 16 ∧
    (bin2hexCommon bs).data = renderFrom bs.length 0 bs ∧
    (∀ b : Nat, '\n' ∉ hexPair b) := by
  refine ⟨count_newline_bin2hexCommon bs, bin2hexCommon_data bs, ?_⟩
  intro b
  have h1 := (hexDigit_spec _ (div16_mod16_lt b)).2.2.1
  have h2 := (hexDigit_spec _ (mod16_lt b)).2.2.1
  simp [hexPair]
  exact ⟨fun h => h1 h.symm, fun h => h2 h.symm⟩

/-! ## File-name predicates (Python `startswith` / `endswith`) -/

/-- Python `str.startswith`: the first `len(p)` characters of `s` are `p`. -/
def sStarts (s p : String) : Bool := s.data.take p.data.length == p.data

/-- Python `str.endswith`: the last `len(p)` characters of `s` are `p`. -/
def sEnds (s p : String) : Bool :=
  s.data.drop (s.data.length - p.data.length) == p.data

lemma sEnds_append_self (x u : String) : sEnds (x ++ u) u = true := by
  show (((x.data ++ u.data).drop ((x.data ++ u.data).length - u.data.length)) == u.data) = true
  have e : (x.data ++ u.data).length - u.data.length = x.data.length := by
    rw [List.length_append]; omega
  rw [e, List.drop_left]
  exact beq_self_eq_true u.data

lemma getLast?_of_sEnds (s p : String) (a : Char) (hp : p.data.getLast? = some a)
    (h : sEnds s p = true) : s.data.getLast? = some a := by
  have hd : s.data.drop (s.data.length - p.data.length) = p.data := eq_of_beq h
  have hsplit : s.data = s.data.take (s.data.length - p.data.length) ++
      s.data.drop (s.data.length - p.data.length) :=
    (List.take_append_drop _ _).symm
  rw [hd] at hsplit
  rw [hsplit, List.getLast?_append, hp, Option.or_some]

lemma take_of_sStarts (s p : String) (h : sStarts s p = true) :
    s.data.take p.data.length = p.data := eq_of_beq h

lemma sStarts_append_left (x s p : String) (hlen : p.data.length ≤ x.data.length) :
    sStarts (x ++ s) p = sStarts x p := by
  show ((x.data ++ s.data).take p.data.length == p.data) = (x.data.take p.data.length == p.data)
  rw [List.take_append_of_le_length hlen]

/-! ## The Artifact Janitor (pre-compile cleanup, source lines 55-68) -/

/-- The generated-artifact naming test of the cleanup sweep (source lines 56
and 64): a name starting with the generated-header prefix `g_`, or ending
with the binary-object suffix `.bc` or the library suffix `.lib`. -/
def isGen (n : String) : Bool :=
  sStarts n "g_" || sEnds n ".bc" || sEnds n ".lib"

/-- A directory entry of the working root: a file with raw byte content, or a
subdirectory with its own entries (the tree may nest arbitrarily deep; the
janitor only ever looks two levels down). -/
inductive Entry where
  | file (name : String) (content : List Nat)
  | dir (name : String) (entries : List Entry)

/-- The inner sweep of a hardware-generation subdirectory (source lines
63-66): `os.remove` every entry whose name matches `isGen`; applied to a
subdirectory, `os.remove` raises `IsADirectoryError`. -/
def sweepDir : List Entry → Except String (List Entry)
  | [] => .ok []
  | .file n c :: rest =>
    if isGen n then sweepDir rest
    else (sweepDir rest).map (fun l => .file n c :: l)
  | .dir n es :: rest =>
    if isGen n then .error "IsADirectoryError"
    else (sweepDir rest).map (fun l => .dir n es :: l)

/-- The pre-compile cleanup loop (source lines 55-68): remove every matching
entry of the root; for each subdirectory whose name starts with `gfx`, run
the same one-level sweep inside it; leave everything else untouched. -/
def janitor : List Entry → Except String (List Entry)
  | [] => .ok []
  | .file n c :: rest =>
    if isGen n then janitor rest
    else (janitor rest).map (fun l => .file n c :: l)
  | .dir n es :: rest =>
    if isGen n then .error "IsADirectoryError"
    else if sStarts n "gfx" then
      match sweepDir es with
      | .error e => .error e
      | .ok es2 => (janitor rest).map (fun l => .dir n es2 :: l)
    else (janitor rest).map (fun l => .dir n es :: l)

/-- An entry that the cleanup is supposed to delete: a *file* whose name
matches the generated-artifact pattern. -/
def matchFile : Entry → Bool
  | .file n _ => isGen n
  | .dir _ _ => false

/-- Expected result of one sweep level: drop exactly the matching files. -/
def sweepSpec (es : List Entry) : List Entry := es.filter (fun e => !matchFile e)

/-- Expected result of the whole cleanup: drop the matching files of the
root, drop the matching files one level inside every `gfx`-prefixed
subdirectory (recursing no further), and keep everything else unchanged. -/
def janitorSpec (es : List Entry) : List Entry :=
  (sweepSpec es).map fun e =>
    match e with
    | .dir n cs => if sStarts n "gfx" then .dir n (sweepSpec cs) else .dir n cs
    | .file n c => .file n c

/-- Guard: no *directory* (at the root, or one level inside a `gfx`-prefixed
subdirectory) carries a generated-artifact name, so `os.remove` is only ever
invoked on plain files. -/
def noGenDir (es : List Entry) : Bool :=
  es.all fun e =>
    match e with
    | .file _ _ => true
    | .dir n cs =>
      !isGen n && (!sStarts n "gfx" || cs.all fun c =>
        match c with
        | .file _ _ => true
        | .dir m _ => !isGen m)

lemma sweepDir_ok (es : List Entry)
    (h : (es.all fun c => match c with
          | .file _ _ => true
          | .dir m _ => !isGen m) = true) :
    sweepDir es = .ok (sweepSpec es) := by
  induction es with
  | nil => rfl
  | cons e rest ih =>
    rw [List.all_cons, Bool.and_eq_true] at h
    have ihe := ih h.2
    cases e with
    | file n c =>
      by_cases hg : isGen n
      · simp [sweepDir, sweepSpec, matchFile, hg, ihe, Except.map]
      · simp [sweepDir, sweepSpec, matchFile, hg, ihe, Except.map]
    | dir n cs =>
      have hng : isGen n = false := by simpa using h.1
      simp [sweepDir, sweepSpec, matchFile, hng, ihe, Except.map]

/-- C5: the Artifact Janitor removes exactly the entries directly inside the
root whose name starts with `g_` or ends with `.bc` or `.lib`, repeats the
same removal one level deep inside every subdirectory whose name starts with
`gfx` without recursing further, and raises no error when no matching files
exist (the guard `noGenDir` says the matching names all belong to plain
files, which is the only situation in which `os.remove` can delete them). -/
theorem janitor_removes_generated (es : List Entry) (h : noGenDir es = true) :
    janitor es = .ok (janitorSpec es) := by
  induction es with
  | nil => rfl
  | cons e rest ih =>
    rw [noGenDir, List.all_cons, Bool.and_eq_true] at h
    have ihe := ih h.2
    cases e with
    | file n c =>
      by_cases hg : isGen n
      · simp [janitor, janitorSpec, sweepSpec, matchFile, hg, ihe, Except.map]
      · simp [janitor, janitorSpec, sweepSpec, matchFile, hg, ihe, Except.map]
    | dir n cs =>
      have h1 : (!isGen n && (!sStarts n "gfx" || cs.all fun c =>
          match c with
          | .file _ _ => true
          | .dir m _ => !isGen m)) = true := h.1
      rw [Bool.and_eq_true] at h1
      have hng : isGen n = false := by simpa using h1.1
      by_cases hgfx : sStarts n "gfx" = true
      · have hcs : (cs.all fun c => match c with
            | .file _ _ => true
            | .dir m _ => !isGen m) = true := by
          rcases Bool.or_eq_true_iff.mp h1.2 with hno | hall
          · rw [hgfx] at hno; simp at hno
          · exact hall
        simp [janitor, hng, hgfx, sweepDir_ok cs hcs, ihe, Except.map,
          janitorSpec, sweepSpec, matchFile]
      · have hgfx2 : sStarts n "gfx" = false := by simpa using hgfx
        simp [janitor, hng, hgfx2, ihe, Except.map,
          janitorSpec, sweepSpec, matchFile]

theorem janitor_removes_generated_witness :
    noGenDir
      [Entry.file "g_old.h" [1], Entry.file "keep.txt" [2],
       Entry.file "stale.bc" [3],
       Entry.dir "gfx6" [Entry.file "a.bc" [4], Entry.file "x.ll" [5],
         Entry.dir "nested" [Entry.file "deep.bc" [6]]],
       Entry.dir "other" [Entry.file "b.bc" [7]]] = true ∧
    janitor
      [Entry.file "g_old.h" [1], Entry.file "keep.txt" [2],
       Entry.file "stale.bc" [3],
       Entry.dir "gfx6" [Entry.file "a.bc" [4], Entry.file "x.ll" [5],
         Entry.dir "nested" [Entry.file "deep.bc" [6]]],
       Entry.dir "other" [Entry.file "b.bc" [7]]] =
      .ok (janitorSpec
        [Entry.file "g_old.h" [1], Entry.file "keep.txt" [2],
         Entry.file "stale.bc" [3],
         Entry.dir "gfx6" [Entry.file "a.bc" [4], Entry.file "x.ll" [5],
           Entry.dir "nested" [Entry.file "deep.bc" [6]]],
         Entry.dir "other" [Entry.file "b.bc" [7]]]) :=
  ⟨by decide, janitor_removes_generated _ (by decide)⟩

/-! ## More name-suffix facts -/

lemma getLast?_append_str (x u : String) (a : Char) (hu : u.data.getLast? = some a) :
    (x ++ u).data.getLast? = some a := by
  rw [String.data_append, List.getLast?_append, hu, Option.or_some]

lemma sEnds_false_of_getLast (s v : String) (a b : Char)
    (hs : s.data.getLast? = some a) (hv : v.data.getLast? = some b) (hab : a ≠ b) :
    sEnds s v = false := by
  cases he : sEnds s v
  · rfl
  · exact absurd (Option.some.inj ((getLast?_of_sEnds s v b hv he).symm.trans hs)) hab.symm

/-! ## The packaging pipeline state machine -/

/-- A plain file: a name and raw byte content (generated header text is
stored as its character codes). -/
structure MFile where
  name : String
  content : List Nat
deriving DecidableEq

/-- Pipeline filesystem state: the files of the working root and the
subdirectories of the root, each a named list of files (the pipeline only
ever touches files one level inside a subdirectory). -/
structure PState where
  root : List MFile
  dirs : List (String × List MFile)
deriving DecidableEq

/-- The external collaborators, as opaque functions: the assembler and the
linker (exit status and, when the invocation actually produced its output,
that output's bytes) and the two IR-text generators (output text as a
function of the mode/variant tag). -/
structure Toolchain where
  asmExit : List Nat → Int
  asmOut : List Nat → Option (List Nat)
  linkExit : List (List Nat) → Int
  linkOut : List (List Nat) → Option (List Nat)
  genArith : String → List Nat
  genImage : String → List Nat

/-- Whether a directory contains a file named `n`. -/
def hasFile (fs : List MFile) (n : String) : Bool :=
  fs.any (fun f => f.name == n)

/-- Content of the file named `n` (first match; unused default when the file
is missing). -/
def getContent : List MFile → String → List Nat
  | [], _ => []
  | f :: fs, n => if f.name == n then f.content else getContent fs n

/-- Create or overwrite the file named `n` (a fresh file is listed last). -/
def upsert : List MFile → String → List Nat → List MFile
  | [], n, c => [⟨n, c⟩]
  | f :: fs, n, c =>
    if f.name == n then ⟨n, c⟩ :: fs else f :: upsert fs n c

/-- `os.remove`: drop the file named `n`. -/
def removeFile (fs : List MFile) (n : String) : List MFile :=
  fs.filter (fun f => !(f.name == n))

/-- The files of subdirectory `g`, when it exists. -/
def findDir : List (String × List MFile) → String → Option (List MFile)
  | [], _ => none
  | p :: rest, g => if p.1 == g then some p.2 else findDir rest g

/-- The files of subdirectory `g` of the state, when it exists. -/
def lookupDir (st : PState) (g : String) : Option (List MFile) :=
  findDir st.dirs g

/-- Replace the files of subdirectory `g`. -/
def setDir (st : PState) (g : String) (d : List MFile) : PState :=
  { st with dirs := st.dirs.map (fun p => if p.1 == g then (g, d) else p) }

/-- Header text stored as file content (character codes). -/
def textBytes (s : String) : List Nat := s.data.map Char.toNat

/-! ### Basic file-operation lemmas -/

lemma mem_upsert {f : MFile} :
    ∀ {fs : List MFile} {n : String} {c : List Nat},
      f ∈ upsert fs n c → f ∈ fs ∨ f = ⟨n, c⟩ := by
  intro fs
  induction fs with
  | nil =>
    intro n c h
    right
    simpa [upsert] using h
  | cons g fs ih =>
    intro n c h
    rw [upsert] at h
    by_cases hg : (g.name == n) = true
    · rw [if_pos hg] at h
      rcases List.mem_cons.mp h with h | h
      · right; exact h
      · left; exact List.mem_cons_of_mem _ h
    · rw [if_neg hg] at h
      rcases List.mem_cons.mp h with h | h
      · left; exact h ▸ List.mem_cons_self g fs
      · rcases ih h with h | h
        · left; exact List.mem_cons_of_mem _ h
        · right; exact h

lemma hasFile_upsert_self :
    ∀ (fs : List MFile) (n : String) (c : List Nat),
      hasFile (upsert fs n c) n = true := by
  intro fs
  induction fs with
  | nil => intro n c; simp [upsert, hasFile]
  | cons g fs ih =>
    intro n c
    rw [upsert]
    by_cases hg : (g.name == n) = true
    · rw [if_pos hg]; simp [hasFile]
    · rw [if_neg hg]
      simp only [hasFile, List.any_cons, hg, Bool.false_or]
      exact ih n c

lemma hasFile_upsert_ne (n m : String) (hnm : n ≠ m) :
    ∀ (fs : List MFile) (c : List Nat),
      hasFile (upsert fs m c) n = hasFile fs n := by
  have hmn : (m == n) = false := beq_eq_false_iff_ne.mpr (Ne.symm hnm)
  intro fs
  induction fs with
  | nil => intro c; simp [upsert, hasFile, hmn]
  | cons g fs ih =>
    intro c
    rw [upsert]
    by_cases hg : (g.name == m) = true
    · rw [if_pos hg]
      have hgm : g.name = m := by simpa using hg
      have h2 : (g.name == n) = false := by rw [hgm]; exact hmn
      simp [hasFile, hmn, h2]
    · rw [if_neg hg]
      show hasFile (g :: upsert fs m c) n = _
      simp only [hasFile, List.any_cons]
      have he := ih c
      simp only [hasFile] at he
      rw [he]

lemma getContent_upsert_self :
    ∀ (fs : List MFile) (n : String) (c : List Nat),
      getContent (upsert fs n c) n = c := by
  intro fs
  induction fs with
  | nil => intro n c; simp [upsert, getContent]
  | cons g fs ih =>
    intro n c
    rw [upsert]
    by_cases hg : (g.name == n) = true
    · rw [if_pos hg]
      show getContent (⟨n, c⟩ :: fs) n = c
      rw [getContent, if_pos (by simp)]
    · rw [if_neg hg]
      show getContent (g :: upsert fs n c) n = c
      rw [getContent, if_neg hg]
      exact ih n c

lemma getContent_upsert_ne (n m : String) (hnm : n ≠ m) :
    ∀ (fs : List MFile) (c : List Nat),
      getContent (upsert fs m c) n = getContent fs n := by
  have hmn : (m == n) = false := beq_eq_false_iff_ne.mpr (Ne.symm hnm)
  intro fs
  induction fs with
  | nil =>
    intro c
    simp [upsert, getContent, hmn]
  | cons g fs ih =>
    intro c
    rw [upsert]
    by_cases hg : (g.name == m) = true
    · rw [if_pos hg]
      have hgm : g.name = m := by simpa using hg
      show getContent (⟨m, c⟩ :: fs) n = getContent (g :: fs) n
      rw [getContent, if_neg (by simp [hmn]), getContent, if_neg (by simp [hgm, hmn])]
    · rw [if_neg hg]
      show getContent (g :: upsert fs m c) n = getContent (g :: fs) n
      rw [getContent, getContent]
      by_cases hgn : (g.name == n) = true
      · rw [if_pos hgn, if_pos hgn]
      · rw [if_neg hgn, if_neg hgn]
        exact ih c

lemma mem_removeFile {f : MFile} {fs : List MFile} {n : String}
    (h : f ∈ removeFile fs n) : f ∈ fs ∧ (f.name == n) = false := by
  unfold removeFile at h
  have := List.mem_filter.mp h
  exact ⟨this.1, by simpa using this.2⟩

lemma hasFile_removeFile_self (fs : List MFile) (n : String) :
    hasFile (removeFile fs n) n = false := by
  unfold hasFile removeFile
  rw [List.any_eq_false]
  intro f hf
  have := (List.mem_filter.mp hf).2
  simpa using this

lemma hasFile_removeFile_ne (n m : String) (hnm : n ≠ m) (fs : List MFile) :
    hasFile (removeFile fs m) n = hasFile fs n := by
  unfold hasFile removeFile
  induction fs with
  | nil => rfl
  | cons g fs ih =>
    rw [List.filter_cons]
    by_cases hg : (g.name == m) = true
    · rw [if_neg (by simp [hg])]
      have hgm : g.name = m := by simpa using hg
      have h2 : (g.name == n) = false := by
        rw [hgm]; exact beq_eq_false_iff_ne.mpr (Ne.symm hnm)
      simp only [List.any_cons, h2, Bool.false_or]
      exact ih
    · rw [if_pos (by simp [hg])]
      simp only [List.any_cons]
      rw [ih]

lemma getContent_removeFile_ne (n m : String) (hnm : n ≠ m) (fs : List MFile) :
    getContent (removeFile fs m) n = getContent fs n := by
  unfold removeFile
  induction fs with
  | nil => rfl
  | cons g fs ih =>
    rw [List.filter_cons]
    by_cases hg : (g.name == m) = true
    · rw [if_neg (by simp [hg])]
      have hgm : g.name = m := by simpa using hg
      have h2 : (g.name == n) = false := by
        rw [hgm]; exact beq_eq_false_iff_ne.mpr (Ne.symm hnm)
      rw [ih]
      show getContent fs n = getContent (g :: fs) n
      rw [getContent, if_neg (by simp [h2])]
    · rw [if_pos (by simp [hg])]
      show getContent (g :: _) n = getContent (g :: fs) n
      rw [getContent, getContent]
      by_cases hgn : (g.name == n) = true
      · rw [if_pos hgn, if_pos hgn]
      · rw [if_neg hgn, if_neg hgn]
        exact ih

lemma mem_foldl_removeFile {f : MFile} :
    ∀ (names : List String) (fs : List MFile),
      f ∈ names.foldl removeFile fs → f ∈ fs ∧ ∀ m ∈ names, f.name ≠ m := by
  intro names
  induction names with
  | nil => intro fs h; exact ⟨h, by simp⟩
  | cons m names ih =>
    intro fs h
    rw [List.foldl_cons] at h
    obtain ⟨h1, h2⟩ := ih (removeFile fs m) h
    obtain ⟨h3, h4⟩ := mem_removeFile h1
    refine ⟨h3, ?_⟩
    intro m2 hm2
    rcases List.mem_cons.mp hm2 with hm2 | hm2
    · rw [hm2]; intro he; rw [he] at h4; simp at h4
    · exact h2 m2 hm2

lemma hasFile_foldl_removeFile_ne (n : String) :
    ∀ (names : List String) (fs : List MFile), n ∉ names →
      hasFile (names.foldl removeFile fs) n = hasFile fs n := by
  intro names
  induction names with
  | nil => intro fs _; rfl
  | cons m names ih =>
    intro fs hn
    rw [List.foldl_cons]
    rw [ih (removeFile fs m) (fun h => hn (List.mem_cons_of_mem _ h))]
    exact hasFile_removeFile_ne n m (fun h => hn (h ▸ List.mem_cons_self m names)) fs

lemma getContent_foldl_removeFile_ne (n : String) :
    ∀ (names : List String) (fs : List MFile), n ∉ names →
      getContent (names.foldl removeFile fs) n = getContent fs n := by
  intro names
  induction names with
  | nil => intro fs _; rfl
  | cons m names ih =>
    intro fs hn
    rw [List.foldl_cons]
    rw [ih (removeFile fs m) (fun h => hn (List.mem_cons_of_mem _ h))]
    exact getContent_removeFile_ne n m (fun h => hn (h ▸ List.mem_cons_self m names)) fs

lemma findDir_map_setDir_ne (g g2 : String) (d : List MFile) (hne : g2 ≠ g) :
    ∀ ps : List (String × List MFile),
      findDir (ps.map (fun p => if p.1 == g then (g, d) else p)) g2 =
        findDir ps g2 := by
  have hgg : (g == g2) = false := beq_eq_false_iff_ne.mpr (Ne.symm hne)
  intro ps
  induction ps with
  | nil => rfl
  | cons p rest ih =>
    rw [List.map_cons]
    by_cases hp : (p.1 == g) = true
    · rw [if_pos hp]
      have hpg : p.1 = g := by simpa using hp
      rw [findDir, if_neg (by simp [hgg]), findDir,
        if_neg (by rw [hpg]; simp [hgg])]
      exact ih
    · rw [if_neg hp]
      rw [findDir, findDir]
      by_cases hp2 : (p.1 == g2) = true
      · rw [if_pos hp2, if_pos hp2]
      · rw [if_neg hp2, if_neg hp2]
        exact ih

lemma lookupDir_setDir_ne (st : PState) (g g2 : String) (d : List MFile)
    (hne : g2 ≠ g) : lookupDir (setDir st g d) g2 = lookupDir st g2 :=
  findDir_map_setDir_ne g g2 d hne st.dirs

lemma findDir_map_setDir_self (g : String) (d : List MFile) :
    ∀ (ps : List (String × List MFile)) (d0 : List MFile),
      findDir ps g = some d0 →
        findDir (ps.map (fun p => if p.1 == g then (g, d) else p)) g = some d := by
  intro ps
  induction ps with
  | nil => intro d0 h; cases h
  | cons p rest ih =>
    intro d0 h
    rw [List.map_cons]
    by_cases hp : (p.1 == g) = true
    · rw [if_pos hp]
      rw [findDir, if_pos (by simp)]
    · rw [if_neg hp]
      rw [findDir, if_neg hp]
      rw [findDir, if_neg hp] at h
      exact ih d0 h

lemma lookupDir_setDir_self (st : PState) (g : String) (d : List MFile)
    (d0 : List MFile) (h : lookupDir st g = some d0) :
    lookupDir (setDir st g d) g = some d :=
  findDir_map_setDir_self g d st.dirs d0 h

lemma setDir_root (st : PState) (g : String) (d : List MFile) :
    (setDir st g d).root = st.root := rfl

/-! ### Pipeline steps (transcribed from the orchestration script) -/

/-- The pre-compile cleanup (source lines 55-68) on the flat pipeline state:
remove the generated-named files of the root and, inside every subdirectory
whose name starts with `gfx`, the generated-named files one level down.  A
subdirectory whose own name matches the generated pattern would make
`os.remove` raise. -/
def cleanFiles (fs : List MFile) : List MFile :=
  fs.filter (fun f => !isGen f.name)

/-- The cleanup step of the pipeline state machine. -/
def cleanStep (st : PState) : Except String PState :=
  if st.dirs.any (fun p => isGen p.1) then .error "IsADirectoryError"
  else .ok { root := cleanFiles st.root,
             dirs := st.dirs.map (fun p =>
               if sStarts p.1 "gfx" then (p.1, cleanFiles p.2) else p) }

/-- Modelled from the spec: the two arithmetic-emulation IR generator calls
(source lines 80-81) invoke `genGlslArithOpEmuCode.main`, an external
component whose code is not part of this artifact; per the spec each call
"takes a fixed input description path and produces one IR-text file in the
Working Root".  The produced text is the toolchain's `genArith` applied to
the mode tag. -/
def genIRStep (tc : Toolchain) (st : PState) : PState :=
  let r1 := upsert st.root "g_glslArithOpEmu.ll" (tc.genArith "std32")
  let r2 := upsert r1 "g_glslArithOpEmuF64.ll" (tc.genArith "float64")
  { st with root := r2 }

/-- Output name of assembling an IR-text file: same base name with the `.ll`
suffix replaced by `.bc` (the assembler's file-name contract per the spec:
"on success produces a same-named Intermediate Binary Object in the same
directory"). -/
def bcName (n : String) : String :=
  String.mk (n.data.take (n.data.length - 3)) ++ ".bc"

/-- The assembly loop (source lines 89-96 for the working root and 213-220
for a variant subdirectory): for every `.ll` file of the directory snapshot
invoke `llvm-as` on it; the exit status of `subprocess.call` is computed and
discarded — the script never inspects it; when the assembler produced its
output, the `.bc` file appears in the directory. -/
def assembleAll (tc : Toolchain) (fs : List MFile) : List MFile :=
  (fs.filter (fun f => sEnds f.name ".ll")).foldl
    (fun acc f =>
      let _exit := tc.asmExit f.content
      match tc.asmOut f.content with
      | some out => upsert acc (bcName f.name) out
      | none => acc)
    fs

/-- The `.bc` search of the special-feature loop (source lines 102-105): the
names matching `glsl<feature>*Emu.bc`, in directory-listing order; the
loop's repeated assignment keeps the last one. -/
def specialMatches (fs : List MFile) (feature : String) : List String :=
  (fs.map (fun f => f.name)).filter
    (fun n => sStarts n ("glsl" ++ feature) && sEnds n "Emu.bc")

/-- One iteration of the special-feature packaging loop (source lines
100-146): search for the feature's `.bc` file keeping the last match; if
none, skip; otherwise link it (exit status computed and discarded), read the
library (missing library file means the `open` raises), write the feature
header, and delete the `.bc` file and the library. -/
def specialStep (tc : Toolchain) (feature : String) (st : PState) :
    Except String PState :=
  let bcFile := (specialMatches st.root feature).foldl (fun _ n => n) ""
  if bcFile == "" then .ok st
  else
    let libFile := "glsl" ++ feature ++ "Emu.lib"
    let _exit := tc.linkExit [getContent st.root bcFile]
    match tc.linkOut [getContent st.root bcFile] with
    | none => .error "IOError"
    | some binData =>
      let root1 := upsert st.root libFile binData
      let root2 := upsert root1 ("g_llpcGlsl" ++ feature ++ "EmuLib.h")
        (textBytes (bin2hexSpecial binData))
      let root3 := removeFile root2 bcFile
      let root4 := removeFile root3 libFile
      .ok { st with root := root4 }

/-- Names of the `.bc` files of a directory, in listing order (the common
and variant packaging collections, source lines 150-153 and 223-226). -/
def bcNames (fs : List MFile) : List String :=
  (fs.map (fun f => f.name)).filter (fun n => sEnds n ".bc")

/-- The common-library packaging step (source lines 148-192): link every
`.bc` file of the working root into `glslEmu.lib` (exit status computed and
discarded), read the library (missing file raises), write the aggregate
header, then delete the collected `.bc` files and the library. -/
def commonStep (tc : Toolchain) (st : PState) : Except String PState :=
  let bcFiles := bcNames st.root
  let libFile := "glslEmu.lib"
  let _exit := tc.linkExit (bcFiles.map (getContent st.root))
  match tc.linkOut (bcFiles.map (getContent st.root)) with
  | none => .error "IOError"
  | some binData =>
    let root1 := upsert st.root libFile binData
    let root2 := upsert root1 "g_llpcGlslEmuLib.h"
      (textBytes (bin2hexCommon binData))
    let root3 := bcFiles.foldl removeFile root2
    let root4 := removeFile root3 libFile
    .ok { st with root := root4 }

/-- Python `str.capitalize`: first character upper-cased, the rest
lower-cased. -/
def pyCapitalize (s : String) : String :=
  match s.data with
  | [] => ""
  | c :: cs => String.mk (c.toUpper :: cs.map Char.toLower)

/-- The variant subdirectory after IR generation and assembly: the
image-emulation generator (modelled from the spec: `genGlslImageOpEmuCode`
is an external component that "produces one IR-text file inside the variant
subdirectory") writes `g_glslImageOpEmu.ll`, then every `.ll` file of the
subdirectory is assembled. -/
def variantAssembled (tc : Toolchain) (g : String) (d0 : List MFile) :
    List MFile :=
  assembleAll tc (upsert d0 "g_glslImageOpEmu.ll" (tc.genImage g))

/-- The link inputs of a variant: the contents of the `.bc` files of the
assembled variant subdirectory, in listing order. -/
def variantInputs (tc : Toolchain) (g : String) (d0 : List MFile) :
    List (List Nat) :=
  (bcNames (variantAssembled tc g d0)).map (getContent (variantAssembled tc g d0))

/-- The variant subdirectory at the end of a successful variant packaging
step whose linker produced `binData` (source lines 228-265): the library
`glslEmu<Tag>.lib` is created, the header `g_llpcGlslEmuLib<Tag>.h` is
written, the collected `.bc` files and then the library are removed. -/
def variantFinal (tc : Toolchain) (g : String) (d0 : List MFile)
    (binData : List Nat) : List MFile :=
  let d2 := variantAssembled tc g d0
  let libFile := "glslEmu" ++ pyCapitalize g ++ ".lib"
  let d3 := upsert d2 libFile binData
  let d4 := upsert d3 ("g_llpcGlslEmuLib" ++ pyCapitalize g ++ ".h")
    (textBytes (bin2hexVariant binData))
  let d5 := (bcNames d2).foldl removeFile d4
  removeFile d5 libFile

/-- One iteration of the per-variant pipeline (source lines 202-265),
scoped to the variant's subdirectory: generate the image-emulation IR
(raises when the subdirectory is missing), assemble, link (exit status
computed and discarded; a missing library file raises at `open`), write the
variant header, clean up the intermediates. -/
def variantStep (tc : Toolchain) (g : String) (st : PState) :
    Except String PState :=
  match lookupDir st g with
  | none => .error "IOError"
  | some d0 =>
    let _exit := tc.linkExit (variantInputs tc g d0)
    match tc.linkOut (variantInputs tc g d0) with
    | none => .error "IOError"
    | some binData => .ok (setDir st g (variantFinal tc g d0 binData))

/-- The whole pipeline (the script's top-to-bottom control flow): cleanup,
arithmetic IR generation, assembly of the working root, the two
special-feature packagings, the aggregate common packaging, then the two
hardware-generation variant packagings. -/
def runPipeline (tc : Toolchain) (st : PState) : Except String PState := do
  let st1 ← cleanStep st
  let st2 := genIRStep tc st1
  let st3 : PState := { st2 with root := assembleAll tc st2.root }
  let st4 ← specialStep tc "NullFs" st3
  let st5 ← specialStep tc "CopyShader" st4
  let st6 ← commonStep tc st5
  let st7 ← variantStep tc "gfx6" st6
  variantStep tc "gfx9" st7

/-! ## Claim C3: external process failure handling (corrected) -/

/-- A mock toolchain whose linker reports a nonzero exit status but still
produces an output file: `subprocess.call`'s return value is discarded by
the script, so packaging proceeds. -/
def tcIgnoreExit : Toolchain :=
  { asmExit := fun _ => 0
    asmOut := fun _ => none
    linkExit := fun _ => 1
    linkOut := fun _ => some [7]
    genArith := fun _ => []
    genImage := fun _ => [] }

/-- A mock toolchain whose linker produces no output file at all. -/
def tcLinkNone : Toolchain :=
  { asmExit := fun _ => 0
    asmOut := fun _ => none
    linkExit := fun _ => 1
    linkOut := fun _ => none
    genArith := fun _ => []
    genImage := fun _ => [] }

/-- A working root holding a single intermediate binary object. -/
def stOneBc : PState := { root := [⟨"a.bc", [7]⟩], dirs := [] }

/-- C3 counterexample: the linker invocation of the common packaging step
returns the nonzero exit status 1, yet the step does not abort — it
completes and writes the aggregate header (`0x07` for the byte 7).  The
script never inspects `subprocess.call`'s return value, so a nonzero or
abnormal exit is not fatal when the external process still leaves an output
file behind. -/
theorem extproc_claim_false :
    tcIgnoreExit.linkExit ((bcNames stOneBc.root).map (getContent stOneBc.root)) = 1 ∧
    commonStep tcIgnoreExit stOneBc =
      .ok { root := [⟨"g_llpcGlslEmuLib.h", [48, 120, 48, 55]⟩], dirs := [] } ∧
    hasFile [MFile.mk "g_llpcGlslEmuLib.h" [48, 120, 48, 55]] "g_llpcGlslEmuLib.h"
      = true := by
  refine ⟨rfl, rfl, by decide⟩

/-- C3 (amended): the pipeline ignores the exit status of the external
assembler and linker invocations; the common packaging step aborts the run —
producing no header and no result state — exactly when the linker left no
library file to read (the subsequent `open` raises), whatever the exit
status was; a failed invocation that still produces the library file does
not abort, and a header is written from that file. -/
theorem extproc_amended (tc : Toolchain) (st : PState)
    (h : tc.linkOut ((bcNames st.root).map (getContent st.root)) = none) :
    commonStep tc st = .error "IOError" := by
  simp only [commonStep, h]

theorem extproc_amended_witness :
    tcLinkNone.linkOut ((bcNames stOneBc.root).map (getContent stOneBc.root)) = none ∧
    commonStep tcLinkNone stOneBc = .error "IOError" :=
  ⟨rfl, extproc_amended tcLinkNone stOneBc rfl⟩

/-! ## Common-step and special-step success characterisations -/

lemma bcNames_sEnds {fs : List MFile} {m : String} (h : m ∈ bcNames fs) :
    sEnds m ".bc" = true :=
  (List.mem_filter.mp h).2

lemma bcNames_hasFile {fs : List MFile} {m : String} (h : m ∈ bcNames fs) :
    hasFile fs m = true := by
  obtain ⟨hm, _⟩ := List.mem_filter.mp h
  obtain ⟨f, hf, he⟩ := List.mem_map.mp hm
  exact List.any_eq_true.mpr ⟨f, hf, by simp [he]⟩

lemma mem_bcNames {fs : List MFile} {m : String} (hhas : hasFile fs m = true)
    (hbc : sEnds m ".bc" = true) : m ∈ bcNames fs := by
  obtain ⟨f, hf, he⟩ := List.any_eq_true.mp hhas
  refine List.mem_filter.mpr ⟨?_, hbc⟩
  exact List.mem_map.mpr ⟨f, hf, by simpa using he⟩

/-- The working root at the end of a successful common packaging whose
linker produced `binData`. -/
def commonFinalRoot (tc : Toolchain) (st : PState) (binData : List Nat) :
    List MFile :=
  removeFile
    ((bcNames st.root).foldl removeFile
      (upsert (upsert st.root "glslEmu.lib" binData) "g_llpcGlslEmuLib.h"
        (textBytes (bin2hexCommon binData))))
    "glslEmu.lib"

lemma commonStep_ok (tc : Toolchain) (st : PState) (binData : List Nat)
    (hlo : tc.linkOut ((bcNames st.root).map (getContent st.root)) = some binData) :
    commonStep tc st = .ok { st with root := commonFinalRoot tc st binData } := by
  simp only [commonStep, hlo, commonFinalRoot]

lemma foldl_keep_last {α : Type} : ∀ (l : List α) (a : α),
    l.foldl (fun _ n => n) a = l.getLastD a := by
  intro l
  induction l with
  | nil => intro a; rfl
  | cons x l ih =>
    intro a
    rw [List.foldl_cons, ih x, List.getLastD_cons]

/-! ## Claim C7: optional feature skip -/

/-- No file of the directory matches the feature's `glsl<feature>*Emu.bc`
pattern. -/
def noSpecialMatch (fs : List MFile) (feature : String) : Bool :=
  fs.all (fun f => !(sStarts f.name ("glsl" ++ feature) && sEnds f.name "Emu.bc"))

lemma specialMatches_eq_nil {fs : List MFile} {feature : String}
    (h : noSpecialMatch fs feature = true) : specialMatches fs feature = [] := by
  unfold specialMatches
  rw [List.filter_eq_nil_iff]
  intro n hn
  obtain ⟨f, hf, he⟩ := List.mem_map.mp hn
  have hx : (!(sStarts f.name ("glsl" ++ feature) && sEnds f.name "Emu.bc")) = true :=
    List.all_eq_true.mp h f hf
  rw [← he]
  intro hc
  rw [hc] at hx
  simp at hx

/-- C7: when no intermediate binary object matches a special feature's
`glsl<feature>*Emu.bc` pattern, that feature's packaging step is skipped
without an error and without changing the state — in particular no header
for the feature is created — and the subsequent aggregate packaging, when
its linker succeeds, still produces the common header
`g_llpcGlslEmuLib.h` while leaving the feature's header exactly as absent
as it was. -/
theorem special_feature_skip (tc : Toolchain) (feature : String) (st : PState)
    (hfeat : feature = "NullFs" ∨ feature = "CopyShader")
    (h : noSpecialMatch st.root feature = true) :
    specialStep tc feature st = .ok st ∧
    ∀ st2, commonStep tc st = .ok st2 →
      hasFile st2.root "g_llpcGlslEmuLib.h" = true ∧
      hasFile st2.root ("g_llpcGlsl" ++ feature ++ "EmuLib.h") =
        hasFile st.root ("g_llpcGlsl" ++ feature ++ "EmuLib.h") := by
  constructor
  · unfold specialStep
    rw [specialMatches_eq_nil h]
    rfl
  · intro st2 hstep
    cases hlo : tc.linkOut ((bcNames st.root).map (getContent st.root)) with
    | none =>
      rw [show commonStep tc st = .error "IOError" by simp only [commonStep, hlo]]
        at hstep
      cases hstep
    | some binData =>
      rw [commonStep_ok tc st binData hlo] at hstep
      have hst2 : st2 = { st with root := commonFinalRoot tc st binData } :=
        (Except.ok.inj hstep).symm
      subst hst2
      constructor
      · show hasFile (commonFinalRoot tc st binData) "g_llpcGlslEmuLib.h" = true
        unfold commonFinalRoot
        rw [hasFile_removeFile_ne _ _ (by decide)]
        rw [hasFile_foldl_removeFile_ne _ _ _ ?notbc]
        case notbc =>
          intro hmem
          exact absurd (bcNames_sEnds hmem) (by decide)
        exact hasFile_upsert_self _ _ _
      · show hasFile (commonFinalRoot tc st binData) _ = _
        unfold commonFinalRoot
        rcases hfeat with hf | hf <;> subst hf
        · rw [hasFile_removeFile_ne _ _ (by decide)]
          rw [hasFile_foldl_removeFile_ne _ _ _ ?notbc1]
          case notbc1 =>
            intro hmem
            exact absurd (bcNames_sEnds hmem) (by decide)
          rw [hasFile_upsert_ne _ _ (by decide), hasFile_upsert_ne _ _ (by decide)]
        · rw [hasFile_removeFile_ne _ _ (by decide)]
          rw [hasFile_foldl_removeFile_ne _ _ _ ?notbc2]
          case notbc2 =>
            intro hmem
            exact absurd (bcNames_sEnds hmem) (by decide)
          rw [hasFile_upsert_ne _ _ (by decide), hasFile_upsert_ne _ _ (by decide)]

/-- A working root whose only binary object matches no special feature. -/
def stSkip : PState := { root := [⟨"x.bc", [3]⟩], dirs := [] }

theorem special_feature_skip_witness :
    noSpecialMatch stSkip.root "NullFs" = true ∧
    specialStep tcIgnoreExit "NullFs" stSkip = .ok stSkip ∧
    (∀ st2, commonStep tcIgnoreExit stSkip = .ok st2 →
      hasFile st2.root "g_llpcGlslEmuLib.h" = true ∧
      hasFile st2.root ("g_llpcGlsl" ++ "NullFs" ++ "EmuLib.h") =
        hasFile stSkip.root ("g_llpcGlsl" ++ "NullFs" ++ "EmuLib.h")) :=
  ⟨by decide,
   (special_feature_skip tcIgnoreExit "NullFs" stSkip (Or.inl rfl) (by decide)).1,
   (special_feature_skip tcIgnoreExit "NullFs" stSkip (Or.inl rfl) (by decide)).2⟩

/-! ## Claim C10: repeated matches keep the last one -/

lemma sEnds_iff_suffix (s p : String) : sEnds s p = true ↔ p.data <:+ s.data := by
  constructor
  · intro h
    have hd : s.data.drop (s.data.length - p.data.length) = p.data := eq_of_beq h
    have hsplit : s.data = s.data.take (s.data.length - p.data.length) ++
        s.data.drop (s.data.length - p.data.length) :=
      (List.take_append_drop _ _).symm
    rw [hd] at hsplit
    exact ⟨s.data.take (s.data.length - p.data.length), hsplit.symm⟩
  · rintro ⟨t, ht⟩
    show (s.data.drop (s.data.length - p.data.length) == p.data) = true
    have hlen : s.data.length = t.length + p.data.length := by
      rw [← ht, List.length_append]
    have he : s.data.length - p.data.length = t.length := by omega
    rw [he, ← ht, List.drop_left]
    exact beq_self_eq_true _

lemma sEnds_bc_of_emuBc {m : String} (h : sEnds m "Emu.bc" = true) :
    sEnds m ".bc" = true := by
  rw [sEnds_iff_suffix] at h ⊢
  exact List.IsSuffix.trans ((sEnds_iff_suffix "Emu.bc" ".bc").mp (by decide)) h

lemma ne_of_getLast (s t : String) (a b : Char) (hs : s.data.getLast? = some a)
    (ht : t.data.getLast? = some b) (hab : a ≠ b) : s ≠ t := by
  intro he
  rw [he, ht] at hs
  exact hab (Option.some.inj hs).symm

lemma getLastD_mem {α : Type} :
    ∀ (l : List α), l ≠ [] → ∀ a : α, l.getLastD a ∈ l
  | [], h, _ => absurd rfl h
  | [x], _, a => by simp [List.getLastD]
  | x :: y :: l, _, a => by
    rw [List.getLastD_cons]
    exact List.mem_cons_of_mem x (getLastD_mem (y :: l) (by simp) x)

lemma specialMatches_mem {fs : List MFile} {feature m : String}
    (h : m ∈ specialMatches fs feature) :
    sStarts m ("glsl" ++ feature) = true ∧ sEnds m "Emu.bc" = true ∧
      hasFile fs m = true := by
  obtain ⟨hm, hp⟩ := List.mem_filter.mp h
  rw [Bool.and_eq_true] at hp
  obtain ⟨f, hf, he⟩ := List.mem_map.mp hm
  exact ⟨hp.1, hp.2, List.any_eq_true.mpr ⟨f, hf, by simp [he]⟩⟩

/-- The `.bc` file the special-feature loop keeps: the last match in
directory-listing order (the search loop repeatedly overwrites `bcFile`). -/
def pickedOf (st : PState) (feature : String) : String :=
  (specialMatches st.root feature).getLastD ""

lemma pickedOf_mem {st : PState} {feature : String}
    (h : specialMatches st.root feature ≠ []) :
    pickedOf st feature ∈ specialMatches st.root feature :=
  getLastD_mem _ h ""

/-- The working root at the end of a successful special-feature packaging
whose linker produced `binData`. -/
def specialFinalRoot (tc : Toolchain) (feature : String) (st : PState)
    (binData : List Nat) : List MFile :=
  removeFile
    (removeFile
      (upsert (upsert st.root ("glsl" ++ feature ++ "Emu.lib") binData)
        ("g_llpcGlsl" ++ feature ++ "EmuLib.h")
        (textBytes (bin2hexSpecial binData)))
      (pickedOf st feature))
    ("glsl" ++ feature ++ "Emu.lib")

lemma specialStep_ok (tc : Toolchain) (feature : String) (st : PState)
    (binData : List Nat) (hne : specialMatches st.root feature ≠ [])
    (hlo : tc.linkOut [getContent st.root (pickedOf st feature)] = some binData) :
    specialStep tc feature st =
      .ok { st with root := specialFinalRoot tc feature st binData } := by
  obtain ⟨-, hpE, -⟩ := specialMatches_mem (pickedOf_mem hne)
  have hpc : (pickedOf st feature).data.getLast? = some 'c' :=
    getLast?_of_sEnds _ "Emu.bc" 'c' rfl hpE
  have hnempty : ((specialMatches st.root feature).getLastD "" == "") = false := by
    refine beq_eq_false_iff_ne.mpr ?_
    intro he
    have : (pickedOf st feature).data.getLast? = none := by
      show (String.data ((specialMatches st.root feature).getLastD "")).getLast? = none
      rw [he]
      rfl
    rw [hpc] at this
    cases this
  have hlo2 : tc.linkOut
      [getContent st.root ((specialMatches st.root feature).getLastD "")] =
      some binData := hlo
  simp only [specialStep]
  rw [foldl_keep_last]
  rw [if_neg (by rw [hnempty]; exact Bool.false_ne_true)]
  rw [hlo2]
  rfl

/-- C10: when several intermediate binary objects match a special feature's
`glsl<feature>*Emu.bc` pattern, the step links exactly the last match in
directory-listing order (the search loop's repeated assignment), deletes it,
and writes the feature header from that object's link result alone; every
other matching object is left in place with its content intact, still
matches the `.bc` collection of the subsequent aggregate common packaging,
and its content is among that packaging's link inputs. -/
theorem special_last_match_wins (tc : Toolchain) (feature : String)
    (st stq : PState) (binData : List Nat)
    (hne : specialMatches st.root feature ≠ [])
    (hlo : tc.linkOut [getContent st.root (pickedOf st feature)] = some binData)
    (hstep : specialStep tc feature st = .ok stq) :
    pickedOf st feature = (specialMatches st.root feature).getLastD "" ∧
    hasFile stq.root (pickedOf st feature) = false ∧
    getContent stq.root ("g_llpcGlsl" ++ feature ++ "EmuLib.h") =
      textBytes (bin2hexSpecial binData) ∧
    ∀ m ∈ specialMatches st.root feature, m ≠ pickedOf st feature →
      hasFile stq.root m = true ∧
      getContent stq.root m = getContent st.root m ∧
      m ∈ bcNames stq.root ∧
      getContent stq.root m ∈ (bcNames stq.root).map (getContent stq.root) := by
  have hq : stq = { st with root := specialFinalRoot tc feature st binData } := by
    have he := specialStep_ok tc feature st binData hne hlo
    rw [he] at hstep
    exact (Except.ok.inj hstep).symm
  subst hq
  obtain ⟨-, hpE, -⟩ := specialMatches_mem (pickedOf_mem hne)
  have hpc : (pickedOf st feature).data.getLast? = some 'c' :=
    getLast?_of_sEnds _ "Emu.bc" 'c' rfl hpE
  have hlibLast : ("glsl" ++ feature ++ "Emu.lib").data.getLast? = some 'b' :=
    getLast?_append_str _ "Emu.lib" 'b' rfl
  have hhdrLast : ("g_llpcGlsl" ++ feature ++ "EmuLib.h").data.getLast? = some 'h' :=
    getLast?_append_str _ "EmuLib.h" 'h' rfl
  have hplib : pickedOf st feature ≠ "glsl" ++ feature ++ "Emu.lib" :=
    ne_of_getLast _ _ 'c' 'b' hpc hlibLast (by decide)
  have hhdrlib : ("g_llpcGlsl" ++ feature ++ "EmuLib.h" : String) ≠
      "glsl" ++ feature ++ "Emu.lib" :=
    ne_of_getLast _ _ 'h' 'b' hhdrLast hlibLast (by decide)
  have hhdrpick : ("g_llpcGlsl" ++ feature ++ "EmuLib.h" : String) ≠
      pickedOf st feature :=
    ne_of_getLast _ _ 'h' 'c' hhdrLast hpc (by decide)
  refine ⟨rfl, ?_, ?_, ?_⟩
  · show hasFile (specialFinalRoot tc feature st binData) (pickedOf st feature)
      = false
    unfold specialFinalRoot
    rw [hasFile_removeFile_ne _ _ hplib]
    exact hasFile_removeFile_self _ _
  · show getContent (specialFinalRoot tc feature st binData) _ = _
    unfold specialFinalRoot
    rw [getContent_removeFile_ne _ _ hhdrlib]
    rw [getContent_removeFile_ne _ _ hhdrpick]
    rw [getContent_upsert_self]
  · intro m hm hmp
    obtain ⟨-, hmE, hmH⟩ := specialMatches_mem hm
    have hmc : m.data.getLast? = some 'c' :=
      getLast?_of_sEnds _ "Emu.bc" 'c' rfl hmE
    have hmlib : m ≠ "glsl" ++ feature ++ "Emu.lib" :=
      ne_of_getLast _ _ 'c' 'b' hmc hlibLast (by decide)
    have hmhdr : m ≠ "g_llpcGlsl" ++ feature ++ "EmuLib.h" :=
      ne_of_getLast _ _ 'c' 'h' hmc hhdrLast (by decide)
    have hhas : hasFile (specialFinalRoot tc feature st binData) m = true := by
      unfold specialFinalRoot
      rw [hasFile_removeFile_ne _ _ hmlib]
      rw [hasFile_removeFile_ne _ _ hmp]
      rw [hasFile_upsert_ne _ _ hmhdr]
      rw [hasFile_upsert_ne _ _ hmlib]
      exact hmH
    have hcontent : getContent (specialFinalRoot tc feature st binData) m =
        getContent st.root m := by
      unfold specialFinalRoot
      rw [getContent_removeFile_ne _ _ hmlib]
      rw [getContent_removeFile_ne _ _ hmp]
      rw [getContent_upsert_ne _ _ hmhdr]
      rw [getContent_upsert_ne _ _ hmlib]
    have hbcmem : m ∈ bcNames (specialFinalRoot tc feature st binData) :=
      mem_bcNames hhas (sEnds_bc_of_emuBc hmE)
    exact ⟨hhas, hcontent, hbcmem, List.mem_map_of_mem _ hbcmem⟩

/-- A working root with two binary objects matching the `NullFs` feature. -/
def stTwo : PState :=
  { root := [⟨"glslNullFsAEmu.bc", [1]⟩, ⟨"glslNullFsBEmu.bc", [2]⟩], dirs := [] }

/-- The state `stTwo` after the `NullFs` special packaging under
`tcIgnoreExit`: the second (last-listed) match was linked and removed, the
first remains for the aggregate packaging. -/
def stTwoAfter : PState :=
  { root := [⟨"glslNullFsAEmu.bc", [1]⟩,
             ⟨"g_llpcGlslNullFsEmuLib.h", [48, 120, 48, 55]⟩], dirs := [] }

theorem special_last_match_wins_witness :
    specialMatches stTwo.root "NullFs" ≠ [] ∧
    (pickedOf stTwo "NullFs" = (specialMatches stTwo.root "NullFs").getLastD "" ∧
     hasFile stTwoAfter.root (pickedOf stTwo "NullFs") = false ∧
     getContent stTwoAfter.root ("g_llpcGlsl" ++ "NullFs" ++ "EmuLib.h") =
       textBytes (bin2hexSpecial [7]) ∧
     ∀ m ∈ specialMatches stTwo.root "NullFs", m ≠ pickedOf stTwo "NullFs" →
       hasFile stTwoAfter.root m = true ∧
       getContent stTwoAfter.root m = getContent stTwo.root m ∧
       m ∈ bcNames stTwoAfter.root ∧
       getContent stTwoAfter.root m ∈
         (bcNames stTwoAfter.root).map (getContent stTwoAfter.root)) :=
  ⟨by decide,
   special_last_match_wins tcIgnoreExit "NullFs" stTwo stTwoAfter [7]
     (by decide) rfl (by rfl)⟩

/-! ## Claim C8: per-variant packaging -/

/-- The directory contains no header (`.h`) file. -/
def noH (fs : List MFile) : Bool := fs.all (fun f => !sEnds f.name ".h")

/-- Number of header (`.h`) files of a directory. -/
def countH (fs : List MFile) : Nat :=
  (fs.filter (fun f => sEnds f.name ".h")).length

lemma sEnds_bcName_bc (n : String) : sEnds (bcName n) ".bc" = true :=
  sEnds_append_self _ _

lemma sEnds_bcName_h (n : String) : sEnds (bcName n) ".h" = false :=
  sEnds_false_of_getLast _ _ 'c' 'h' (getLast?_append_str _ ".bc" 'c' rfl) rfl
    (by decide)

lemma noH_upsert {fs : List MFile} {n : String} {c : List Nat}
    (h : noH fs = true) (hn : sEnds n ".h" = false) :
    noH (upsert fs n c) = true := by
  rw [noH, List.all_eq_true]
  intro f hf
  rcases mem_upsert hf with hf | hf
  · exact List.all_eq_true.mp h f hf
  · subst hf
    simp [hn]

lemma noH_assembleAll (tc : Toolchain) (fs : List MFile) (h : noH fs = true) :
    noH (assembleAll tc fs) = true := by
  unfold assembleAll
  have H : ∀ (l : List MFile) (acc : List MFile), noH acc = true →
      noH (l.foldl (fun acc f =>
        let _exit := tc.asmExit f.content
        match tc.asmOut f.content with
        | some out => upsert acc (bcName f.name) out
        | none => acc) acc) = true := by
    intro l
    induction l with
    | nil => intro acc ha; exact ha
    | cons f l ih =>
      intro acc ha
      rw [List.foldl_cons]
      refine ih _ ?_
      show noH (match tc.asmOut f.content with
        | some out => upsert acc (bcName f.name) out
        | none => acc) = true
      cases ho : tc.asmOut f.content with
      | none => exact ha
      | some out => exact noH_upsert ha (sEnds_bcName_h f.name)
  exact H _ fs h

lemma countH_upsert_h :
    ∀ (fs : List MFile) (n : String) (c : List Nat),
      noH fs = true → sEnds n ".h" = true → countH (upsert fs n c) = 1 := by
  intro fs
  induction fs with
  | nil =>
    intro n c _ hn
    show countH [⟨n, c⟩] = 1
    unfold countH
    rw [List.filter_cons, if_pos (by simp [hn])]
    rfl
  | cons g fs ih =>
    intro n c h hn
    rw [noH, List.all_cons, Bool.and_eq_true] at h
    have hg : sEnds g.name ".h" = false := by simpa using h.1
    have hgn : (g.name == n) = false := by
      refine beq_eq_false_iff_ne.mpr ?_
      intro he
      rw [he, hn] at hg
      cases hg
    rw [upsert, if_neg (by simp [hgn])]
    show countH (g :: upsert fs n c) = 1
    unfold countH
    rw [List.filter_cons, if_neg (by simp [hg])]
    have := ih n c h.2 hn
    unfold countH at this
    exact this

lemma countH_removeFile (fs : List MFile) (n : String)
    (hn : sEnds n ".h" = false) :
    countH (removeFile fs n) = countH fs := by
  unfold countH removeFile
  induction fs with
  | nil => rfl
  | cons g fs ih =>
    rw [List.filter_cons]
    by_cases hg : (g.name == n) = true
    · rw [if_neg (by simp [hg])]
      have hgn : g.name = n := by simpa using hg
      rw [List.filter_cons, if_neg (by simp [hgn, hn])]
      exact ih
    · rw [if_pos (by simp [hg])]
      rw [List.filter_cons, List.filter_cons]
      by_cases hgh : (sEnds g.name ".h") = true
      · rw [if_pos (by simp [hgh]), if_pos (by simp [hgh])]
        simp only [List.length_cons]
        rw [ih]
      · rw [if_neg (by simp [hgh]), if_neg (by simp [hgh])]
        exact ih

lemma countH_foldl_removeFile :
    ∀ (names : List String) (fs : List MFile),
      (∀ m ∈ names, sEnds m ".h" = false) →
      countH (names.foldl removeFile fs) = countH fs := by
  intro names
  induction names with
  | nil => intro fs _; rfl
  | cons m names ih =>
    intro fs hm
    rw [List.foldl_cons]
    rw [ih (removeFile fs m) (fun m2 hm2 => hm m2 (List.mem_cons_of_mem _ hm2))]
    exact countH_removeFile fs m (hm m (List.mem_cons_self m names))

lemma variantStep_ok (tc : Toolchain) (g : String) (st : PState)
    (d0 : List MFile) (binData : List Nat)
    (hd : lookupDir st g = some d0)
    (hlo : tc.linkOut (variantInputs tc g d0) = some binData) :
    variantStep tc g st = .ok (setDir st g (variantFinal tc g d0 binData)) := by
  simp only [variantStep, hd, hlo]

lemma variantFinal_hasHeader (tc : Toolchain) (g : String) (d0 : List MFile)
    (binData : List Nat) :
    hasFile (variantFinal tc g d0 binData)
      ("g_llpcGlslEmuLib" ++ pyCapitalize g ++ ".h") = true ∧
    getContent (variantFinal tc g d0 binData)
      ("g_llpcGlslEmuLib" ++ pyCapitalize g ++ ".h") =
      textBytes (bin2hexVariant binData) := by
  have hhdrLast : ("g_llpcGlslEmuLib" ++ pyCapitalize g ++ ".h").data.getLast? =
      some 'h' := getLast?_append_str _ ".h" 'h' rfl
  have hlibLast : ("glslEmu" ++ pyCapitalize g ++ ".lib").data.getLast? =
      some 'b' := getLast?_append_str _ ".lib" 'b' rfl
  have hne : ("g_llpcGlslEmuLib" ++ pyCapitalize g ++ ".h" : String) ≠
      "glslEmu" ++ pyCapitalize g ++ ".lib" :=
    ne_of_getLast _ _ 'h' 'b' hhdrLast hlibLast (by decide)
  have hnot : ("g_llpcGlslEmuLib" ++ pyCapitalize g ++ ".h" : String) ∉
      bcNames (variantAssembled tc g d0) := by
    intro hmem
    have h1 := getLast?_of_sEnds _ ".bc" 'c' rfl (bcNames_sEnds hmem)
    rw [hhdrLast] at h1
    exact absurd (Option.some.inj h1) (by decide)
  constructor
  · show hasFile (variantFinal tc g d0 binData) _ = true
    unfold variantFinal
    rw [hasFile_removeFile_ne _ _ hne]
    rw [hasFile_foldl_removeFile_ne _ _ _ hnot]
    exact hasFile_upsert_self _ _ _
  · show getContent (variantFinal tc g d0 binData) _ = _
    unfold variantFinal
    rw [getContent_removeFile_ne _ _ hne]
    rw [getContent_foldl_removeFile_ne _ _ _ hnot]
    exact getContent_upsert_self _ _ _

lemma variantFinal_countH (tc : Toolchain) (g : String) (d0 : List MFile)
    (binData : List Nat) (h : noH d0 = true) :
    countH (variantFinal tc g d0 binData) = 1 := by
  have hll : sEnds ("g_glslImageOpEmu.ll" : String) ".h" = false := by decide
  have hnoH2 : noH (variantAssembled tc g d0) = true := by
    unfold variantAssembled
    exact noH_assembleAll tc _ (noH_upsert h hll)
  have hlibLast : ("glslEmu" ++ pyCapitalize g ++ ".lib").data.getLast? =
      some 'b' := getLast?_append_str _ ".lib" 'b' rfl
  have hlibH : sEnds ("glslEmu" ++ pyCapitalize g ++ ".lib") ".h" = false :=
    sEnds_false_of_getLast _ _ 'b' 'h' hlibLast rfl (by decide)
  have hhdrH : sEnds ("g_llpcGlslEmuLib" ++ pyCapitalize g ++ ".h") ".h" = true :=
    sEnds_append_self _ _
  have hbcs : ∀ m ∈ bcNames (variantAssembled tc g d0), sEnds m ".h" = false := by
    intro m hm
    have h1 := getLast?_of_sEnds _ ".bc" 'c' rfl (bcNames_sEnds hm)
    exact sEnds_false_of_getLast _ _ 'c' 'h' h1 rfl (by decide)
  unfold variantFinal
  rw [countH_removeFile _ _ hlibH]
  rw [countH_foldl_removeFile _ _ hbcs]
  exact countH_upsert_h _ _ _ (noH_upsert hnoH2 hlibH) hhdrH

/-- C8: the per-variant pipeline is isolated per hardware-generation tag.
After the two variant packagings (`gfx6` then `gfx9`) both succeed, the
working root and every other subdirectory are untouched; each variant's
subdirectory equals `variantFinal` applied to that variant's *own* initial
directory only (its link output `out6`/`out9` is produced from
`variantInputs`, a function of that directory alone — no cross-variant
mixing); each directory holds the variant header
`<tag>/g_llpcGlslEmuLib<Tag>.h` named from the capitalized tag, with content
the hex text of that variant's link result; and when a variant directory
started with no `.h` file it ends with exactly one. -/
theorem variant_isolation (tc : Toolchain) (st st1 st2 : PState)
    (d6 d9 : List MFile) (out6 out9 : List Nat)
    (hd6 : lookupDir st "gfx6" = some d6)
    (hd9 : lookupDir st "gfx9" = some d9)
    (hlo6 : tc.linkOut (variantInputs tc "gfx6" d6) = some out6)
    (hlo9 : tc.linkOut (variantInputs tc "gfx9" d9) = some out9)
    (h6 : variantStep tc "gfx6" st = .ok st1)
    (h9 : variantStep tc "gfx9" st1 = .ok st2) :
    st2.root = st.root ∧
    (∀ g2, g2 ≠ "gfx6" → g2 ≠ "gfx9" → lookupDir st2 g2 = lookupDir st g2) ∧
    lookupDir st2 "gfx6" = some (variantFinal tc "gfx6" d6 out6) ∧
    lookupDir st2 "gfx9" = some (variantFinal tc "gfx9" d9 out9) ∧
    hasFile (variantFinal tc "gfx6" d6 out6) "g_llpcGlslEmuLibGfx6.h" = true ∧
    hasFile (variantFinal tc "gfx9" d9 out9) "g_llpcGlslEmuLibGfx9.h" = true ∧
    getContent (variantFinal tc "gfx6" d6 out6) "g_llpcGlslEmuLibGfx6.h" =
      textBytes (bin2hexVariant out6) ∧
    getContent (variantFinal tc "gfx9" d9 out9) "g_llpcGlslEmuLibGfx9.h" =
      textBytes (bin2hexVariant out9) ∧
    (noH d6 = true → countH (variantFinal tc "gfx6" d6 out6) = 1) ∧
    (noH d9 = true → countH (variantFinal tc "gfx9" d9 out9) = 1) := by
  have hst1 : st1 = setDir st "gfx6" (variantFinal tc "gfx6" d6 out6) := by
    have he := variantStep_ok tc "gfx6" st d6 out6 hd6 hlo6
    rw [he] at h6
    exact (Except.ok.inj h6).symm
  subst hst1
  have hd9b : lookupDir (setDir st "gfx6" (variantFinal tc "gfx6" d6 out6)) "gfx9"
      = some d9 := by
    rw [lookupDir_setDir_ne _ _ _ _ (by decide)]
    exact hd9
  have hst2 : st2 = setDir (setDir st "gfx6" (variantFinal tc "gfx6" d6 out6))
      "gfx9" (variantFinal tc "gfx9" d9 out9) := by
    have he := variantStep_ok tc "gfx9" _ d9 out9 hd9b hlo9
    rw [he] at h9
    exact (Except.ok.inj h9).symm
  subst hst2
  have e6 : ("g_llpcGlslEmuLib" ++ pyCapitalize "gfx6" ++ ".h" : String) =
      "g_llpcGlslEmuLibGfx6.h" := rfl
  have e9 : ("g_llpcGlslEmuLib" ++ pyCapitalize "gfx9" ++ ".h" : String) =
      "g_llpcGlslEmuLibGfx9.h" := rfl
  refine ⟨rfl, ?_, ?_, ?_, ?_, ?_, ?_, ?_, ?_, ?_⟩
  · intro g2 hg6 hg9
    rw [lookupDir_setDir_ne _ _ _ _ hg9, lookupDir_setDir_ne _ _ _ _ hg6]
  · rw [lookupDir_setDir_ne _ _ _ _ (by decide)]
    exact lookupDir_setDir_self _ _ _ _ hd6
  · exact lookupDir_setDir_self _ _ _ _ hd9b
  · rw [← e6]
    exact (variantFinal_hasHeader tc "gfx6" d6 out6).1
  · rw [← e9]
    exact (variantFinal_hasHeader tc "gfx9" d9 out9).1
  · rw [← e6]
    exact (variantFinal_hasHeader tc "gfx6" d6 out6).2
  · rw [← e9]
    exact (variantFinal_hasHeader tc "gfx9" d9 out9).2
  · exact variantFinal_countH tc "gfx6" d6 out6
  · exact variantFinal_countH tc "gfx9" d9 out9

/-- A mock toolchain whose assembler copies its input and whose linker
concatenates its inputs. -/
def tcV : Toolchain :=
  { asmExit := fun _ => 0
    asmOut := fun c => some c
    linkExit := fun _ => 0
    linkOut := fun iss => some (iss.foldl (fun a b => a ++ b) [])
    genArith := fun _ => []
    genImage := fun _ => [5] }

/-- Two empty variant subdirectories. -/
def stGfx : PState := { root := [], dirs := [("gfx6", []), ("gfx9", [])] }

/-- `stGfx` after the `gfx6` variant packaging under `tcV`. -/
def stGfx1 : PState :=
  { root := [],
    dirs := [("gfx6", [⟨"g_glslImageOpEmu.ll", [5]⟩,
                       ⟨"g_llpcGlslEmuLibGfx6.h", [48, 120, 48, 53]⟩]),
             ("gfx9", [])] }

/-- `stGfx` after both variant packagings under `tcV`. -/
def stGfx2 : PState :=
  { root := [],
    dirs := [("gfx6", [⟨"g_glslImageOpEmu.ll", [5]⟩,
                       ⟨"g_llpcGlslEmuLibGfx6.h", [48, 120, 48, 53]⟩]),
             ("gfx9", [⟨"g_glslImageOpEmu.ll", [5]⟩,
                       ⟨"g_llpcGlslEmuLibGfx9.h", [48, 120, 48, 53]⟩])] }

theorem variant_isolation_witness :
    lookupDir stGfx "gfx6" = some [] ∧
    (stGfx2.root = stGfx.root ∧
     (∀ g2, g2 ≠ "gfx6" → g2 ≠ "gfx9" →
       lookupDir stGfx2 g2 = lookupDir stGfx g2) ∧
     lookupDir stGfx2 "gfx6" = some (variantFinal tcV "gfx6" [] [5]) ∧
     lookupDir stGfx2 "gfx9" = some (variantFinal tcV "gfx9" [] [5]) ∧
     hasFile (variantFinal tcV "gfx6" [] [5]) "g_llpcGlslEmuLibGfx6.h" = true ∧
     hasFile (variantFinal tcV "gfx9" [] [5]) "g_llpcGlslEmuLibGfx9.h" = true ∧
     getContent (variantFinal tcV "gfx6" [] [5]) "g_llpcGlslEmuLibGfx6.h" =
       textBytes (bin2hexVariant [5]) ∧
     getContent (variantFinal tcV "gfx9" [] [5]) "g_llpcGlslEmuLibGfx9.h" =
       textBytes (bin2hexVariant [5]) ∧
     (noH [] = true → countH (variantFinal tcV "gfx6" [] [5]) = 1) ∧
     (noH [] = true → countH (variantFinal tcV "gfx9" [] [5]) = 1)) :=
  ⟨rfl, variant_isolation tcV stGfx stGfx1 stGfx2 [] [] [5] [5]
    rfl rfl rfl rfl (by rfl) (by rfl)⟩

/-! ## Claim C6: cleanup completeness of a full run -/

/-- The directory contains no intermediate binary object and no library
binary. -/
def noBcLib (fs : List MFile) : Bool :=
  fs.all (fun f => !sEnds f.name ".bc" && !sEnds f.name ".lib")

/-- Every hardware-generation (`gfx`-prefixed) subdirectory is free of
intermediate binary objects and library binaries. -/
def dirsClean (dirs : List (String × List MFile)) : Bool :=
  dirs.all (fun p => !sStarts p.1 "gfx" || noBcLib p.2)

/-- No `.bc` or `.lib` file remains in the working root or in any
hardware-generation subdirectory. -/
def stateClean (st : PState) : Bool :=
  noBcLib st.root && dirsClean st.dirs

/-- The directory contains no library binary. -/
def noLib (fs : List MFile) : Bool := fs.all (fun f => !sEnds f.name ".lib")

lemma noBcLib_mem {fs : List MFile} {f : MFile} (h : noBcLib fs = true)
    (hf : f ∈ fs) :
    sEnds f.name ".bc" = false ∧ sEnds f.name ".lib" = false := by
  have h2 : (!sEnds f.name ".bc" && !sEnds f.name ".lib") = true :=
    List.all_eq_true.mp h f hf
  rw [Bool.and_eq_true] at h2
  exact ⟨by simpa using h2.1, by simpa using h2.2⟩

lemma noLib_of_noBcLib {fs : List MFile} (h : noBcLib fs = true) :
    noLib fs = true := by
  rw [noLib, List.all_eq_true]
  intro f hf
  simp [(noBcLib_mem h hf).2]

lemma noLib_mem {fs : List MFile} {f : MFile} (h : noLib fs = true)
    (hf : f ∈ fs) : sEnds f.name ".lib" = false := by
  have h2 : (!sEnds f.name ".lib") = true := List.all_eq_true.mp h f hf
  simpa using h2

lemma noLib_upsert {fs : List MFile} {n : String} {c : List Nat}
    (h : noLib fs = true) (hn : sEnds n ".lib" = false) :
    noLib (upsert fs n c) = true := by
  rw [noLib, List.all_eq_true]
  intro f hf
  rcases mem_upsert hf with hf | hf
  · exact List.all_eq_true.mp h f hf
  · subst hf
    simp [hn]

lemma sEnds_bcName_lib (n : String) : sEnds (bcName n) ".lib" = false :=
  sEnds_false_of_getLast _ _ 'c' 'b' (getLast?_append_str _ ".bc" 'c' rfl) rfl
    (by decide)

lemma noLib_assembleAll (tc : Toolchain) (fs : List MFile)
    (h : noLib fs = true) : noLib (assembleAll tc fs) = true := by
  unfold assembleAll
  have H : ∀ (l : List MFile) (acc : List MFile), noLib acc = true →
      noLib (l.foldl (fun acc f =>
        let _exit := tc.asmExit f.content
        match tc.asmOut f.content with
        | some out => upsert acc (bcName f.name) out
        | none => acc) acc) = true := by
    intro l
    induction l with
    | nil => intro acc ha; exact ha
    | cons f l ih =>
      intro acc ha
      rw [List.foldl_cons]
      refine ih _ ?_
      show noLib (match tc.asmOut f.content with
        | some out => upsert acc (bcName f.name) out
        | none => acc) = true
      cases ho : tc.asmOut f.content with
      | none => exact ha
      | some out => exact noLib_upsert ha (sEnds_bcName_lib f.name)
  exact H _ fs h

lemma except_bind_ok {α β : Type} {x : Except String α} {f : α → Except String β}
    {b : β} (h : x >>= f = .ok b) : ∃ a, x = .ok a ∧ f a = .ok b := by
  cases x with
  | error e => simp [Bind.bind, Except.bind] at h
  | ok a =>
    refine ⟨a, rfl, ?_⟩
    simpa [Bind.bind, Except.bind] using h

lemma cleanStep_clean {st st1 : PState} (h : cleanStep st = .ok st1) :
    stateClean st1 = true := by
  unfold cleanStep at h
  by_cases hd : (st.dirs.any fun p => isGen p.1) = true
  · rw [if_pos hd] at h
    cases h
  · rw [if_neg hd] at h
    have hst1 := (Except.ok.inj h).symm
    subst hst1
    rw [stateClean, Bool.and_eq_true]
    constructor
    · rw [noBcLib, List.all_eq_true]
      intro f hf
      have h2 : (!isGen f.name) = true := (List.mem_filter.mp hf).2
      have h3 : isGen f.name = false := by simpa using h2
      unfold isGen at h3
      simp only [Bool.or_eq_false_iff] at h3
      simp [h3.1.2, h3.2]
    · rw [dirsClean, List.all_eq_true]
      intro p hp
      obtain ⟨q, hq, he⟩ := List.mem_map.mp hp
      by_cases hg : sStarts q.1 "gfx" = true
      · rw [if_pos hg] at he
        subst he
        show (!sStarts q.1 "gfx" || noBcLib (cleanFiles q.2)) = true
        have : noBcLib (cleanFiles q.2) = true := by
          rw [noBcLib, List.all_eq_true]
          intro f hf
          have h2 : (!isGen f.name) = true := (List.mem_filter.mp hf).2
          have h3 : isGen f.name = false := by simpa using h2
          unfold isGen at h3
          simp only [Bool.or_eq_false_iff] at h3
          simp [h3.1.2, h3.2]
        simp [this]
      · rw [if_neg hg] at he
        subst he
        have hg2 : sStarts q.1 "gfx" = false := by
          cases hx : sStarts q.1 "gfx"
          · rfl
          · exact absurd hx hg
        simp [hg2]

lemma specialStep_cases {tc : Toolchain} {feature : String} {st st' : PState}
    (h : specialStep tc feature st = .ok st') :
    st' = st ∨ ∃ binData,
      st' = { st with root := specialFinalRoot tc feature st binData } := by
  simp only [specialStep] at h
  by_cases hb : (List.foldl (fun _ n => n) "" (specialMatches st.root feature)
      == "") = true
  · rw [if_pos hb] at h
    left
    exact (Except.ok.inj h).symm
  · rw [if_neg hb] at h
    cases hlo : tc.linkOut [getContent st.root
        (List.foldl (fun _ n => n) "" (specialMatches st.root feature))] with
    | none =>
      rw [hlo] at h
      cases h
    | some binData =>
      rw [hlo] at h
      right
      refine ⟨binData, ?_⟩
      rw [← Except.ok.inj h]
      unfold specialFinalRoot pickedOf
      rw [foldl_keep_last]

lemma noLib_specialFinalRoot (tc : Toolchain) (feature : String) (st : PState)
    (binData : List Nat) (hn : noLib st.root = true) :
    noLib (specialFinalRoot tc feature st binData) = true := by
  rw [noLib, List.all_eq_true]
  intro f hf
  unfold specialFinalRoot at hf
  obtain ⟨hf1, hlib⟩ := mem_removeFile hf
  obtain ⟨hf2, hpick⟩ := mem_removeFile hf1
  rcases mem_upsert hf2 with hf3 | hf3
  · rcases mem_upsert hf3 with hf4 | hf4
    · exact List.all_eq_true.mp hn f hf4
    · subst hf4
      simp at hlib
  · subst hf3
    show (!sEnds ("g_llpcGlsl" ++ feature ++ "EmuLib.h") ".lib") = true
    have hx : sEnds ("g_llpcGlsl" ++ feature ++ "EmuLib.h") ".lib" = false :=
      sEnds_false_of_getLast _ _ 'h' 'b'
        (getLast?_append_str _ "EmuLib.h" 'h' rfl) rfl (by decide)
    simp [hx]

lemma specialStep_noLib_dirs {tc : Toolchain} {feature : String} {st st' : PState}
    (h : specialStep tc feature st = .ok st') (hn : noLib st.root = true) :
    noLib st'.root = true ∧ st'.dirs = st.dirs := by
  rcases specialStep_cases h with h2 | ⟨binData, h2⟩ <;> subst h2
  · exact ⟨hn, rfl⟩
  · exact ⟨noLib_specialFinalRoot tc feature st binData hn, rfl⟩

lemma commonStep_noBcLib_dirs {tc : Toolchain} {st st' : PState}
    (h : commonStep tc st = .ok st') (hn : noLib st.root = true) :
    noBcLib st'.root = true ∧ st'.dirs = st.dirs := by
  cases hlo : tc.linkOut ((bcNames st.root).map (getContent st.root)) with
  | none =>
    rw [show commonStep tc st = .error "IOError" by simp only [commonStep, hlo]]
      at h
    cases h
  | some binData =>
    rw [commonStep_ok tc st binData hlo] at h
    have hst : st' = { st with root := commonFinalRoot tc st binData } :=
      (Except.ok.inj h).symm
    subst hst
    refine ⟨?_, rfl⟩
    show noBcLib (commonFinalRoot tc st binData) = true
    rw [noBcLib, List.all_eq_true]
    intro f hf
    unfold commonFinalRoot at hf
    obtain ⟨hf1, hlib⟩ := mem_removeFile hf
    obtain ⟨hf2, hnames⟩ := mem_foldl_removeFile _ _ hf1
    rcases mem_upsert hf2 with hf3 | hf3
    · rcases mem_upsert hf3 with hf4 | hf4
      · have hl := noLib_mem hn hf4
        by_cases hbc : sEnds f.name ".bc" = true
        · have hhas : hasFile st.root f.name = true :=
            List.any_eq_true.mpr ⟨f, hf4, by simp⟩
          exact absurd rfl (hnames f.name (mem_bcNames hhas hbc))
        · have hbc2 : sEnds f.name ".bc" = false := by
            cases hx : sEnds f.name ".bc"
            · rfl
            · exact absurd hx hbc
          simp [hbc2, hl]
      · subst hf4
        simp at hlib
    · subst hf3
      show (!sEnds ("g_llpcGlslEmuLib.h" : String) ".bc" &&
        !sEnds ("g_llpcGlslEmuLib.h" : String) ".lib") = true
      decide

lemma findDir_mem :
    ∀ {ps : List (String × List MFile)} {g : String} {d : List MFile},
      findDir ps g = some d → ∃ p, p ∈ ps ∧ p.1 = g ∧ p.2 = d := by
  intro ps
  induction ps with
  | nil => intro g d h; cases h
  | cons p rest ih =>
    intro g d h
    rw [findDir] at h
    by_cases hp : (p.1 == g) = true
    · rw [if_pos hp] at h
      exact ⟨p, List.mem_cons_self p rest, by simpa using hp,
        Option.some.inj h⟩
    · rw [if_neg hp] at h
      obtain ⟨q, hq, hq1, hq2⟩ := ih h
      exact ⟨q, List.mem_cons_of_mem _ hq, hq1, hq2⟩

lemma dirsClean_setDir {st : PState} {g : String} {F : List MFile}
    (hd : dirsClean st.dirs = true) (hF : noBcLib F = true) :
    dirsClean ((setDir st g F).dirs) = true := by
  unfold setDir
  rw [dirsClean, List.all_eq_true]
  intro p hp
  obtain ⟨q, hq, he⟩ := List.mem_map.mp hp
  by_cases hqg : (q.1 == g) = true
  · rw [if_pos hqg] at he
    subst he
    show (!sStarts g "gfx" || noBcLib F) = true
    simp [hF]
  · rw [if_neg hqg] at he
    subst he
    exact List.all_eq_true.mp hd q hq

lemma noBcLib_variantFinal (tc : Toolchain) (g : String) (d0 : List MFile)
    (binData : List Nat) (hn : noLib d0 = true) :
    noBcLib (variantFinal tc g d0 binData) = true := by
  have hll : sEnds ("g_glslImageOpEmu.ll" : String) ".lib" = false := by decide
  have hd2 : noLib (variantAssembled tc g d0) = true := by
    unfold variantAssembled
    exact noLib_assembleAll tc _ (noLib_upsert hn hll)
  rw [noBcLib, List.all_eq_true]
  intro f hf
  unfold variantFinal at hf
  obtain ⟨hf1, hlib⟩ := mem_removeFile hf
  obtain ⟨hf2, hnames⟩ := mem_foldl_removeFile _ _ hf1
  rcases mem_upsert hf2 with hf3 | hf3
  · rcases mem_upsert hf3 with hf4 | hf4
    · have hl := noLib_mem hd2 hf4
      by_cases hbc : sEnds f.name ".bc" = true
      · have hhas : hasFile (variantAssembled tc g d0) f.name = true :=
          List.any_eq_true.mpr ⟨f, hf4, by simp⟩
        exact absurd rfl (hnames f.name (mem_bcNames hhas hbc))
      · have hbc2 : sEnds f.name ".bc" = false := by
          cases hx : sEnds f.name ".bc"
          · rfl
          · exact absurd hx hbc
        simp [hbc2, hl]
    · subst hf4
      simp at hlib
  · subst hf3
    show (!sEnds ("g_llpcGlslEmuLib" ++ pyCapitalize g ++ ".h") ".bc" &&
      !sEnds ("g_llpcGlslEmuLib" ++ pyCapitalize g ++ ".h") ".lib") = true
    have hhdrLast : ("g_llpcGlslEmuLib" ++ pyCapitalize g ++ ".h").data.getLast? =
        some 'h' := getLast?_append_str _ ".h" 'h' rfl
    have h1 : sEnds ("g_llpcGlslEmuLib" ++ pyCapitalize g ++ ".h") ".bc" = false :=
      sEnds_false_of_getLast _ _ 'h' 'c' hhdrLast rfl (by decide)
    have h2 : sEnds ("g_llpcGlslEmuLib" ++ pyCapitalize g ++ ".h") ".lib" = false :=
      sEnds_false_of_getLast _ _ 'h' 'b' hhdrLast rfl (by decide)
    simp [h1, h2]

lemma variantStep_clean {tc : Toolchain} {g : String} {st st' : PState}
    (hg : sStarts g "gfx" = true) (h : variantStep tc g st = .ok st')
    (hr : noBcLib st.root = true) (hd : dirsClean st.dirs = true) :
    noBcLib st'.root = true ∧ dirsClean st'.dirs = true := by
  unfold variantStep at h
  cases hld : lookupDir st g with
  | none =>
    rw [hld] at h
    cases h
  | some d0 =>
    rw [hld] at h
    cases hlo : tc.linkOut (variantInputs tc g d0) with
    | none =>
      simp only [hlo] at h
      cases h
    | some binData =>
      simp only [hlo] at h
      have hst : st' = setDir st g (variantFinal tc g d0 binData) :=
        (Except.ok.inj h).symm
      subst hst
      have hnoLib : noLib d0 = true := by
        obtain ⟨p, hp, hp1, hp2⟩ := findDir_mem hld
        have := List.all_eq_true.mp hd p hp
        have h3 : (!sStarts p.1 "gfx" || noBcLib p.2) = true := this
        rw [hp1, hp2, hg] at h3
        simp only [Bool.not_true, Bool.false_or] at h3
        exact noLib_of_noBcLib h3
      exact ⟨hr, dirsClean_setDir hd (noBcLib_variantFinal tc g d0 binData hnoLib)⟩

/-- C6: after a full successful run of the pipeline, every intermediate
binary object (`.bc`) and every library binary (`.lib`) has been deleted:
none remains in the working root or in any hardware-generation (`gfx`)
subdirectory.  (The surviving files are the generated headers, the generated
IR text, and the untouched source inputs.) -/
theorem cleanup_completeness (tc : Toolchain) (st st' : PState)
    (h : runPipeline tc st = .ok st') : stateClean st' = true := by
  unfold runPipeline at h
  obtain ⟨st1, hc, h⟩ := except_bind_ok h
  obtain ⟨st4, hs1, h⟩ := except_bind_ok h
  obtain ⟨st5, hs2, h⟩ := except_bind_ok h
  obtain ⟨st6, hcm, h⟩ := except_bind_ok h
  obtain ⟨st7, hv6, h⟩ := except_bind_ok h
  have h1 := cleanStep_clean hc
  rw [stateClean, Bool.and_eq_true] at h1
  have hroot1 : noLib st1.root = true := noLib_of_noBcLib h1.1
  have hdirs1 : dirsClean st1.dirs = true := h1.2
  have hroot3 : noLib (assembleAll tc (genIRStep tc st1).root) = true := by
    refine noLib_assembleAll tc _ ?_
    show noLib (upsert (upsert st1.root "g_glslArithOpEmu.ll"
      (tc.genArith "std32")) "g_glslArithOpEmuF64.ll"
      (tc.genArith "float64")) = true
    exact noLib_upsert (noLib_upsert hroot1 (by decide)) (by decide)
  obtain ⟨hroot4, hdirs4eq⟩ := specialStep_noLib_dirs hs1 hroot3
  obtain ⟨hroot5, hdirs5eq⟩ := specialStep_noLib_dirs hs2 hroot4
  obtain ⟨hroot6, hdirs6eq⟩ := commonStep_noBcLib_dirs hcm hroot5
  have hdirs6 : dirsClean st6.dirs = true := by
    rw [hdirs6eq, hdirs5eq, hdirs4eq]
    exact hdirs1
  obtain ⟨hroot7, hdirs7⟩ := variantStep_clean (by decide) hv6 hroot6 hdirs6
  obtain ⟨hroot8, hdirs8⟩ := variantStep_clean (by decide) h hroot7 hdirs7
  rw [stateClean, Bool.and_eq_true]
  exact ⟨hroot8, hdirs8⟩

/-- The end state of a full run of the pipeline on `stGfx` under `tcV`. -/
def stFullRun : PState :=
  { root := [⟨"g_glslArithOpEmu.ll", []⟩, ⟨"g_glslArithOpEmuF64.ll", []⟩,
             ⟨"g_llpcGlslEmuLib.h", []⟩],
    dirs := [("gfx6", [⟨"g_glslImageOpEmu.ll", [5]⟩,
                       ⟨"g_llpcGlslEmuLibGfx6.h", [48, 120, 48, 53]⟩]),
             ("gfx9", [⟨"g_glslImageOpEmu.ll", [5]⟩,
                       ⟨"g_llpcGlslEmuLibGfx9.h", [48, 120, 48, 53]⟩])] }

theorem cleanup_completeness_witness :
    runPipeline tcV stGfx = .ok stFullRun ∧ stateClean stFullRun = true :=
  ⟨rfl, cleanup_completeness tcV stGfx stFullRun rfl⟩
